import Mathlib

/-!
Verification of the Runex directory-operations engine (`src/runex/ops/dirops.py`)
against its natural-language specification.

The Python functions are shallowly embedded as executable Lean definitions:
paths appear either as raw character lists (`CPath`, for the string-level
functions `fixpath`, `_check_not_infloop`, `_check_valid_unpack` and the
unpack walk) or as lists of path components relative to a tree root (`RPath`,
for the copy/move tree synchronizer).  Regular-expression filters are
abstracted as their search-semantics matching predicates `String → Bool`.
Filesystem state is explicit: association lists of file paths to contents and
lists of existing directory paths.  Python `while` loops are embedded with an
explicit fuel argument, and statements about termination say that enough fuel
reaches a fixed point that further fuel does not change.
-/

/-! ## FilterEngine: the per-file inclusion decision of `_run_copy_or_move` -/

/-- Embeds the per-file filter decision inside `_run_copy_or_move`
(dirops.py lines 199-202):
`if onlf and not re.search(onlf, file): continue` followed by
`if ignf and re.search(ignf, file): continue`.
A regular expression under `re.search` semantics is abstracted as its matching
predicate `String → Bool`; an unset filter is `none`.  The result is `false`
exactly when one of the two `continue` branches fires, and matching is applied
to the bare filename `file`, never to a full path. -/
def shouldInclude (onlf ignf : Option (String → Bool)) (file : String) : Bool :=
  if (match onlf with | some p => !(p file) | none => false) then false
  else if (match ignf with | some q => q file | none => false) then false
  else true

/-! ## CycleGuard: `_check_not_infloop` -/

/-- Character-level path, the direct image of a Python path string. -/
abbrev CPath := List Char

/-- Abbreviation turning a string literal into its character list. -/
def strL (s : String) : CPath := s.toList

/-- Embeds the Python substring test `needle in hay` on strings: some
contiguous run of `hay` equals `needle`. -/
def substrOf (needle hay : CPath) : Bool :=
  hay.tails.any (fun t => needle.isPrefixOf t)

/-- Embeds the head component of `os.path.split` (posixpath semantics):
`i = p.rfind('/') + 1; head = p[:i]`, then trailing slashes are stripped from
`head` unless `head` consists only of slashes. -/
def pathSplitHead (p : CPath) : CPath :=
  let tail := (p.reverse.takeWhile (fun c => !(c = '/'))).reverse
  let head := p.take (p.length - tail.length)
  if head ≠ [] ∧ ¬(head.all (fun c => c = '/')) then
    (head.reverse.dropWhile (fun c => c = '/')).reverse
  else head

/-- Embeds `_check_not_infloop` (dirops.py lines 445-464).  The parameter
`isdirSrc` stands for the filesystem query `os.path.isdir(src)`.  The
containment test is `dst in src` — `dst` as a substring of `src` — exactly as
written in the source line
`if os.path.isdir(src) and dst in src and src_base != dst_base`. -/
def check_not_infloop (isdirSrc : Bool) (src dst : CPath) : Bool :=
  let srcBase := pathSplitHead src
  let dstBase := pathSplitHead dst
  if isdirSrc ∧ substrOf dst src ∧ srcBase ≠ dstBase then false else true

/-! ## PathNormalizer: `fixpath` (POSIX execution, `os.name != "nt"`) -/

/-- A path-separator character, the character class of `re.sub(r"[\\/]+", "/", _)`. -/
def isSepChar (c : Char) : Bool := c = '/' || c = '\\'

/-- Embeds `re.sub(r"[\\/]+", "/", _)`: every maximal run of slashes and
backslashes becomes one `'/'`.  The flag records whether the previous input
character belonged to a separator run. -/
def collapseSepsAux : Bool → CPath → CPath
  | _, [] => []
  | prevSep, c :: rest =>
    if isSepChar c then
      if prevSep then collapseSepsAux true rest
      else '/' :: collapseSepsAux true rest
    else c :: collapseSepsAux false rest

/-- Embeds `re.sub(r"[\\/]+", "/", s)`. -/
def collapseSeps (l : CPath) : CPath := collapseSepsAux false l

/-- Embeds Python `s.split("/")` on character lists. -/
def splitOnSlashL : CPath → List CPath
  | [] => [[]]
  | c :: rest =>
    match splitOnSlashL rest with
    | [] => [[]]
    | h :: t => if c = '/' then [] :: h :: t else (c :: h) :: t

/-- Embeds one step of `posixpath.join`: for each further component `b`,
`if b.startswith(sep): path = b elif not path or path.endswith(sep):
path += b else: path += sep + b`. -/
def joinFold (path b : CPath) : CPath :=
  if b.head? = some '/' then b
  else if path = [] ∨ path.getLast? = some '/' then path ++ b
  else path ++ '/' :: b

/-- Embeds `os.path.join(*parts)` under POSIX semantics. -/
def posixJoinL : List CPath → CPath
  | [] => []
  | a :: rest => rest.foldl joinFold a

/-- Embeds `s.replace(":", ":\\")`: each colon is followed by an inserted
backslash. -/
def replaceColons : CPath → CPath
  | [] => []
  | c :: rest =>
    if c = ':' then ':' :: '\\' :: replaceColons rest else c :: replaceColons rest

/-- Embeds the Python substring test `":\\" in s`. -/
def hasColonBackslash : CPath → Bool
  | ':' :: '\\' :: _ => true
  | _ :: rest => hasColonBackslash rest
  | [] => false

/-- Embeds the saved path start of `fixpath`:
`if path.startswith("\\\\"): prefix = "\\\\" elif path.startswith("/"):
prefix = "/" else: prefix = ""`. -/
def pfxOf (path : CPath) : CPath :=
  if path.take 2 = ['\\', '\\'] then ['\\', '\\']
  else if path.head? = some '/' then ['/']
  else []

/-- Embeds `fixpath` (dirops.py lines 305-334) as executed on a POSIX system
(`os.name != "nt"`, so the Windows-only character stripping is skipped and
`os.path.join` is `posixpath.join`): detect and save a `\\\\` or `/` path
start, strip leading backslashes (`path.lstrip("\\")`), collapse separator
runs, split on `/` and rejoin with `posixpath.join`, then if the result
contains `":"` but not `":\\"` replace every `":"` by `":\\"`. -/
def fixpathL (path : CPath) : CPath :=
  let pfx := pfxOf path
  let cleaned := collapseSeps (path.dropWhile (fun c => c = '\\'))
  let normalized := posixJoinL (splitOnSlashL cleaned)
  let normalized :=
    if normalized.contains ':' && !(hasColonBackslash normalized) then
      replaceColons normalized
    else normalized
  pfx ++ normalized

/-- `fixpath` on Lean strings. -/
def fixpath (p : String) : String := ⟨fixpathL p.toList⟩

/-- Specification-side predicate: two adjacent characters are not both `'/'`.
A collapsed path satisfies `List.Chain' noTwoSlash`. -/
def noTwoSlash (a b : Char) : Prop := ¬(a = '/' ∧ b = '/')

/-! ## ArchiveExtractor: `_check_valid_unpack` and `run_unpack` -/

/-- The flattened extension list that the loop of `_check_valid_unpack`
iterates over: `shutil.get_unpack_formats()` with the standard process-wide
registry returns, sorted by format name, `bztar, gztar, tar, xztar, zip`,
and the inner loop visits each format's extensions in order. -/
def unpackExtensions : List CPath :=
  [strL ".tar.bz2", strL ".tbz2", strL ".tar.gz", strL ".tgz", strL ".tar",
   strL ".tar.xz", strL ".txz", strL ".zip"]

/-- One iteration of the extension loop of `_check_valid_unpack`:
`if dir_path.endswith(extention): valid_format = True; packformat = extention`. -/
def scanStep (dirPath : CPath) (acc : Bool × CPath) (ext : CPath) : Bool × CPath :=
  if ext.isSuffixOf dirPath then (true, ext) else acc

/-- Embeds the scanning loop of `_check_valid_unpack` (dirops.py lines
499-507): `valid_format`/`packformat` start as `False`/`""`, and every
registered extension that `dir_path` ends with overwrites both, so the last
matching extension in registry order wins. -/
def scanUnpackFormats (dirPath : CPath) : Bool × CPath :=
  unpackExtensions.foldl (scanStep dirPath) (false, [])

/-- Embeds `_check_valid_unpack` (dirops.py lines 486-520).  The parameter
`dirExists` stands for `os.path.exists(dir_path)`; when the path does not
exist the scanning loop never runs and the result is `(False, "")`. -/
def check_valid_unpack (dirExists : Bool) (dirPath : CPath) : Bool × CPath :=
  if dirExists then scanUnpackFormats dirPath else (false, [])

/-- Embeds Python `s.removesuffix(t)`: drop `t` from the end of `s` exactly
once when `t` is nonempty and `s` ends with it, else return `s` unchanged. -/
def removesuffixL (s t : CPath) : CPath :=
  if t ≠ [] ∧ t.isSuffixOf s then s.take (s.length - t.length) else s

/-- Embeds the destination derivation of `run_unpack` (dirops.py lines 84-87)
for a one-element row: `valid_format, extention = _check_valid_unpack(src)`
and `dst = src.removesuffix(extention)`. -/
def runUnpackDefaultDst (dirExists : Bool) (src : CPath) : CPath :=
  removesuffixL src (check_valid_unpack dirExists src).2

/-! ## RecursiveUnpacker: `run_unpack_all_in_folder` -/

/-- State of the filesystem and of one `run_unpack_all_in_folder` invocation:
`files` is the list of existing file paths in walk order (extraction appends
newly created files at the end), `dirs` the list of existing directory paths
(queried through `os.path.isdir(dst)` in `run_unpack`), `ledger` the
`unpacked_dirs` list, and `log` the chronological record of every archive
extraction actually performed by `_unpack_func` during the invocation. -/
structure UnpState where
  files : List CPath
  dirs : List CPath
  ledger : List CPath
  log : List CPath
deriving DecidableEq

/-- Embeds `run_unpack` (dirops.py lines 67-91) called on the one-element row
`[[p]]` as `run_unpack_all_in_folder` does: re-validate the format, derive
`dst` by suffix removal, and extract when `override or not
os.path.isdir(dst)`.  The abstract archive-content map `extract` lists the
file paths that `shutil.unpack_archive` would create; extraction appends the
created files that are not already present (existing ones are overwritten in
place), creates the destination directory, and appends the source path to
the extraction log. -/
def runUnpackOne (extract : CPath → List CPath) (ov : Bool) (p : CPath)
    (st : UnpState) : UnpState :=
  let res := check_valid_unpack (st.files.contains p) p
  let dst := removesuffixL p res.2
  if res.1 && (ov || !(st.dirs.contains dst)) then
    { st with
      files := st.files ++ (extract p).filter (fun q => !(st.files.contains q)),
      dirs := if st.dirs.contains dst then st.dirs else st.dirs ++ [dst],
      log := st.log ++ [p] }
  else st

/-- Embeds the body of the walk loop of `run_unpack_all_in_folder`
(dirops.py lines 111-125 and 129-141) for one walked file: if the file has a
supported archive format and its path is not yet in `unpacked_dirs`, call
`run_unpack`, append the path to `unpacked_dirs` and set
`files_unpacked = True` (the flag component of the accumulator). -/
def unpStep (extract : CPath → List CPath) (ov : Bool)
    (acc : UnpState × Bool) (p : CPath) : UnpState × Bool :=
  let st := acc.1
  if (check_valid_unpack (st.files.contains p) p).1 && !(st.ledger.contains p) then
    let st1 := runUnpackOne extract ov p st
    ({ st1 with ledger := st1.ledger ++ [p] }, true)
  else acc

/-- Whether path `p` lies inside the tree rooted at `src`: every file path
that `os.walk(src)` + `os.path.join` produces starts with `src` followed by
the separator. -/
def isUnder (src p : CPath) : Bool := (src ++ ['/']).isPrefixOf p

/-- Embeds one full `os.walk(src)` traversal of `run_unpack_all_in_folder`:
the walk enumerates, in traversal order, the files below `src` that are
present when the pass starts, and runs `unpStep` on each; the `Bool`
component is the pass's `files_unpacked` flag. -/
def onePass (extract : CPath → List CPath) (ov : Bool) (src : CPath)
    (st : UnpState) : UnpState × Bool :=
  (st.files.filter (isUnder src)).foldl (unpStep extract ov) (st, false)

/-- Embeds the `while files_unpacked:` loop of the recursive mode (dirops.py
lines 106-125) with explicit fuel: repeat passes while the previous pass set
`files_unpacked`, stopping as soon as a pass finds nothing new. -/
def runPasses (extract : CPath → List CPath) (ov : Bool) (src : CPath) :
    Nat → UnpState → UnpState
  | 0, st => st
  | fuel + 1, st =>
    let r := onePass extract ov src st
    if r.2 then runPasses extract ov src fuel r.1 else r.1

/-- The key set of the configuration dictionary `utils.VAR`:
`global_variables()` in utils.py builds `{"ss_extensions": ...}` and nothing
anywhere in the repository adds another key to it or reassigns it (dirwiz.py
and load.py each build their own separate module-level `VAR`). -/
def utilsVARKeys : List String := ["ss_extensions"]

/-- Embeds the per-root body of `run_unpack_all_in_folder` (dirops.py lines
98-141).  The first statement of the loop body (line 99) builds the progress
message through the dictionary lookup `utils.VAR['print_tast_div']`; when the
key is absent from `utils.VAR` — which it always is, see `utilsVARKeys` —
that lookup raises an uncaught `KeyError` (`none`) before
`unpacked_dirs = []` is initialized, before the walk, and before any
extraction.  Were the lookup to succeed, `unpacked_dirs = []` would be
re-initialized for this root and either the recursive pass loop or a single
walk would run (lines 102-141). -/
def runRoot (extract : CPath → List CPath) (ov : Bool) (recurse : Bool)
    (src : CPath) (fuel : Nat) (st : UnpState) : Option UnpState :=
  if utilsVARKeys.contains "print_tast_div" then
    let st0 := { st with ledger := [] }
    some (if recurse then runPasses extract ov src fuel st0
          else (onePass extract ov src st0).1)
  else none

/-- Embeds `run_unpack_all_in_folder` over its list of root sources; an
uncaught exception while processing a root (`none`) aborts the whole
invocation. -/
def runUnpackAllInFolder (extract : CPath → List CPath) (ov : Bool)
    (recurse : Bool) (fuel : Nat) : List CPath → UnpState → Option UnpState
  | [], st => some st
  | root :: rest, st =>
    match runRoot extract ov recurse root fuel st with
    | none => none
    | some st1 => runUnpackAllInFolder extract ov recurse fuel rest st1

/-- Modelled from the specification's words, NOT from the source: the
invocation behavior that claim C6 describes — one in-memory ledger shared
across all root sources of the invocation (never re-initialized between
roots) and no configuration lookup that could fail.  Defined only to compare
the claimed behavior against `runUnpackAllInFolder`, the embedding of the
source. -/
def runUnpackAllSharedLedger (extract : CPath → List CPath) (ov : Bool)
    (recurse : Bool) (fuel : Nat) (roots : List CPath) (st : UnpState) :
    UnpState :=
  roots.foldl
    (fun s root =>
      if recurse then runPasses extract ov root fuel s
      else (onePass extract ov root s).1) st

/-- The concrete nested-archive scenario of the specification: a root
directory containing `outer.zip`, whose extraction produces `inner.zip`,
whose extraction produces a plain file. -/
def outerZipPath : CPath := strL "root/outer.zip"

/-- The nested archive created by extracting `outer.zip`. -/
def innerZipPath : CPath := strL "root/outer/inner.zip"

/-- The plain file created by extracting `inner.zip`. -/
def innerDataPath : CPath := strL "root/outer/inner/a.txt"

/-- Archive contents for the nested scenario. -/
def nestedExtract (p : CPath) : List CPath :=
  if p = outerZipPath then [innerZipPath]
  else if p = innerZipPath then [innerDataPath]
  else []

/-- Initial state of the nested scenario: only `outer.zip` exists. -/
def nestedStart : UnpState := ⟨[outerZipPath], [], [], []⟩

/-! ## TreeSyncExecutor: `_run_copy_or_move` on a directory source -/

/-- Component path relative to the synchronized source root (`[]` denotes
the root itself): the image of `os.path.relpath(..., src)` split at
separators.  The same relative path addresses the mirrored entry under the
destination root. -/
abbrev RPath := List String

/-- Looks a file path up in an association list of file paths to contents. -/
def lookupF : List (RPath × String) → RPath → Option String
  | [], _ => none
  | (q, c) :: rest, p => if q = p then some c else lookupF rest p

/-- Writes content at a path: overwrite the existing entry in place or
append a new one (the image of creating or overwriting a file). -/
def setF : List (RPath × String) → RPath → String → List (RPath × String)
  | [], p, c => [(p, c)]
  | (q, d) :: rest, p, c =>
    if q = p then (q, c) :: rest else (q, d) :: setF rest p c

/-- Removes a file path (the source-side effect of a successful move). -/
def removeF (fs : List (RPath × String)) (p : RPath) : List (RPath × String) :=
  fs.filter (fun e => e.1 ≠ p)

/-- Filesystem state seen by one copy/move task with a directory source:
the source tree's files, and the destination tree's directories and files,
all addressed by root-relative paths.  Source and destination trees are
disjoint, the situation the cycle guard exists to ensure. -/
structure SyncState where
  srcFiles : List (RPath × String)
  dstDirs : List RPath
  dstFiles : List (RPath × String)
deriving DecidableEq

/-- The `option` argument of `_run_copy_or_move`: `'cp'` or `'mv'`. -/
inductive TransferMode where
  | cp : TransferMode
  | mv : TransferMode
deriving DecidableEq

/-- Embeds `os.path.exists(dst_path)` on the destination side: a file or a
directory exists at the path. -/
def existsDst (st : SyncState) (p : RPath) : Bool :=
  (lookupF st.dstFiles p).isSome || st.dstDirs.contains p

/-- Embeds `os.makedirs(path, exist_ok=True)` under the destination root:
create the directory and every missing ancestor up to and including the
destination root itself (`r.inits` lists `[]` up to `r`). -/
def mkdirs (ds : List RPath) (r : RPath) : List RPath :=
  r.inits.foldl (fun acc d => if acc.contains d then acc else acc ++ [d]) ds

/-- Embeds `_copy_or_move` (dirops.py lines 217-234) for one walked source
file `root ++ [f]` (`src_path` is always a regular file inside the walk, so
the `cp` branch executes `os.makedirs(os.path.dirname(dst_path),
exist_ok=True)` then `shutil.copy2(src_path, dst_path)`).
`shutil.copy2` redirects into `dst_path` when that is an existing directory
(copying to `dst_path/basename`) and raises (`none`) when the final target
is itself a directory.  `shutil.move` performs no directory creation: when
`dst_path` is an existing directory it moves to `dst_path/basename`,
raising `shutil.Error` if that target already exists; otherwise it renames
onto `dst_path`, overwriting an existing destination file but raising
(`none`) when the destination's parent directory does not exist.  A missing
source file also yields `none`. -/
def copyOrMove (mode : TransferMode) (root : RPath) (f : String)
    (st : SyncState) : Option SyncState :=
  let rel := root ++ [f]
  match lookupF st.srcFiles rel with
  | none => none
  | some content =>
    match mode with
    | TransferMode.cp =>
      let ds := mkdirs st.dstDirs root
      if ds.contains rel then
        if ds.contains (rel ++ [f]) then none
        else some { st with dstDirs := ds,
                            dstFiles := setF st.dstFiles (rel ++ [f]) content }
      else some { st with dstDirs := ds,
                          dstFiles := setF st.dstFiles rel content }
    | TransferMode.mv =>
      if st.dstDirs.contains rel then
        if existsDst st (rel ++ [f]) then none
        else some { st with srcFiles := removeF st.srcFiles rel,
                            dstFiles := setF st.dstFiles (rel ++ [f]) content }
      else if st.dstDirs.contains root then
        some { st with srcFiles := removeF st.srcFiles rel,
                       dstFiles := setF st.dstFiles rel content }
      else none

/-- Embeds the inner file loop of `_run_copy_or_move` (dirops.py lines
195-210): the two filter `continue` checks (the decision `shouldInclude`
applied to the bare filename), then `if override: transfer else: transfer
only if not os.path.exists(dst_path)`.  An uncaught exception from a
transfer (`none`) aborts the whole walk, as in the source, which has no
handler around `_copy_or_move`. -/
def runFiles (mode : TransferMode) (onlf ignf : Option (String → Bool))
    (ov : Bool) (root : RPath) :
    List String → SyncState → Option SyncState
  | [], st => some st
  | f :: fs, st =>
    if shouldInclude onlf ignf f then
      if ov then
        match copyOrMove mode root f st with
        | none => none
        | some st1 => runFiles mode onlf ignf ov root fs st1
      else
        if existsDst st (root ++ [f]) then runFiles mode onlf ignf ov root fs st
        else
          match copyOrMove mode root f st with
          | none => none
          | some st1 => runFiles mode onlf ignf ov root fs st1
    else runFiles mode onlf ignf ov root fs st

/-- Embeds the directory-source branch of `_run_copy_or_move` (dirops.py
lines 186-210): for each `os.walk` entry `(root, files)` in top-down
traversal order, create the mirrored destination directory when neither
filter is set (`if not onlf and not ignf: os.makedirs(dst_root,
exist_ok=True)`), then process that directory's files. -/
def runDir (mode : TransferMode) (onlf ignf : Option (String → Bool))
    (ov : Bool) : List (RPath × List String) → SyncState → Option SyncState
  | [], st => some st
  | (root, files) :: rest, st =>
    let st0 := if onlf.isNone && ignf.isNone then
        { st with dstDirs := mkdirs st.dstDirs root } else st
    match runFiles mode onlf ignf ov root files st0 with
    | none => none
    | some st1 => runDir mode onlf ignf ov rest st1

/-! ## Theorems -/

/-- C2: for every filename and every pair of optional search-semantics filters,
the tree-sync inclusion decision returns `true` iff (`only` is unset or matches
the filename) and (`ignore` is unset or does not match the filename). -/
theorem shouldInclude_iff (onlf ignf : Option (String → Bool)) (file : String) :
    shouldInclude onlf ignf file = true ↔
      ((∀ p, onlf = some p → p file = true) ∧
       (∀ q, ignf = some q → q file = false)) := by
  cases onlf with
  | none =>
    cases ignf with
    | none => simp [shouldInclude]
    | some q => cases hq : q file <;> simp [shouldInclude, hq]
  | some p =>
    cases ignf with
    | none => cases hp : p file <;> simp [shouldInclude, hp]
    | some q =>
      cases hp : p file <;> cases hq : q file <;> simp [shouldInclude, hp, hq]

/-- C1 (evidence of the code bug): with `source = "/a/b"` an existing directory
and `destination = "/a/b/c"`, `_check_not_infloop` returns `True` (reports the
task as safe), because the source tests `dst in src` — the destination as a
substring of the source — which is the reverse of the nesting relation that the
function docstring ("directory dst is contained in the directory src") and the
specification describe; the specification requires `isSafe` to be `false` on
exactly this input. -/
theorem check_not_infloop_misses_nested_destination :
    check_not_infloop true (strL "/a/b") (strL "/a/b/c") = true := by decide

/-- C8 counterexample: normalization is not idempotent.  `fixpath "a:b"`
yields `"a:\b"` (a backslash is inserted after the colon), and normalizing
that result again collapses the inserted backslash into a slash and then
re-inserts a backslash, giving the different string `"a:\/b"`. -/
theorem fixpath_not_idempotent :
    fixpath (fixpath "a:b") ≠ fixpath "a:b" := by decide

example : fixpath "a:b" = "a:\\b" := by decide
example : fixpath "a:\\b" = "a:\\/b" := by decide
example : fixpath "/a//b\\c/" = "/a/b/c/" := by decide
example : fixpath "\\\\server\\share" = "\\\\server/share" := by decide
example : fixpath "\\a" = "a" := by decide
example : fixpath "/" = "/" := by decide

/-! ### Supporting lemmas for path normalization -/

theorem collapseSepsAux_not_bs (l : CPath) : ∀ b : Bool, '\\' ∉ collapseSepsAux b l := by
  induction l with
  | nil => intro b; simp [collapseSepsAux]
  | cons c rest ih =>
    intro b
    by_cases hs : isSepChar c = true
    · cases b <;> simp only [collapseSepsAux, hs, if_true, if_false] <;>
        intro hmem
      · rcases List.mem_cons.1 hmem with h | h
        · exact absurd h.symm (by decide)
        · exact ih true h
      · exact ih true hmem
    · have hc : ¬(c = '\\') := by
        intro hcc; subst hcc; exact hs (by decide)
      cases b <;> simp only [collapseSepsAux, hs, if_false] <;> intro hmem <;>
        rcases List.mem_cons.1 hmem with h | h
      · exact hc h.symm
      · exact ih false h
      · exact hc h.symm
      · exact ih false h

theorem collapseSepsAux_true_head (l : CPath) :
    (collapseSepsAux true l).head? ≠ some '/' := by
  induction l with
  | nil => simp [collapseSepsAux]
  | cons c rest ih =>
    by_cases hs : isSepChar c = true
    · simpa [collapseSepsAux, hs] using ih
    · have hc : ¬(c = '/') := by
        intro hcc; subst hcc; exact hs (by decide)
      simp [collapseSepsAux, hs, hc]

theorem collapseSepsAux_chain (l : CPath) :
    ∀ b : Bool, List.Chain' noTwoSlash (collapseSepsAux b l) := by
  induction l with
  | nil => intro b; simp [collapseSepsAux]
  | cons c rest ih =>
    intro b
    by_cases hs : isSepChar c = true
    · cases b
      · simp only [collapseSepsAux, hs, if_true, if_false]
        refine List.chain'_cons'.2 ⟨?_, ih true⟩
        intro y hy hcontra
        exact collapseSepsAux_true_head rest (by rw [hy, hcontra.2])
      · simpa [collapseSepsAux, hs] using ih true
    · have hc : ¬(c = '/') := by
        intro hcc; subst hcc; exact hs (by decide)
      cases b <;> simp only [collapseSepsAux, hs, if_false] <;>
        exact List.chain'_cons'.2 ⟨fun y _ hcontra => hc hcontra.1, ih false⟩

theorem collapseSepsAux_id (l : CPath) (hbs : '\\' ∉ l)
    (hch : List.Chain' noTwoSlash l) :
    collapseSepsAux false l = l ∧
      (l.head? ≠ some '/' → collapseSepsAux true l = l) := by
  induction l with
  | nil => simp [collapseSepsAux]
  | cons c rest ih =>
    have hcbs : ¬(c = '\\') := fun h => hbs (by simp [h])
    have hrest_bs : '\\' ∉ rest := fun h => hbs (List.mem_cons_of_mem _ h)
    have hrest_ch : List.Chain' noTwoSlash rest := (List.chain'_cons'.1 hch).2
    have ihr := ih hrest_bs hrest_ch
    by_cases hc : c = '/'
    · subst hc
      have hrest_hd : rest.head? ≠ some '/' := by
        intro hh
        exact (List.chain'_cons'.1 hch).1 '/' hh ⟨rfl, rfl⟩
      refine ⟨?_, fun hh => absurd (rfl : (some '/' : Option Char) = some '/') (by simp at hh)⟩
      simp [collapseSepsAux, isSepChar, ihr.2 hrest_hd]
    · have hs : isSepChar c = false := by
        simp [isSepChar, hc, hcbs]
      exact ⟨by simp [collapseSepsAux, hs, ihr.1],
             fun _ => by simp [collapseSepsAux, hs, ihr.1]⟩

theorem collapseSepsAux_mem (l : CPath) :
    ∀ (b : Bool) (c : Char), c ∈ collapseSepsAux b l → c ∈ l ∨ c = '/' := by
  induction l with
  | nil => intro b c h; simp [collapseSepsAux] at h
  | cons d rest ih =>
    intro b c h
    by_cases hs : isSepChar d = true
    · cases b <;> simp only [collapseSepsAux, hs, if_true, if_false] at h
      · rcases List.mem_cons.1 h with h | h
        · exact Or.inr h
        · rcases ih true c h with h | h
          · exact Or.inl (List.mem_cons_of_mem _ h)
          · exact Or.inr h
      · rcases ih true c h with h | h
        · exact Or.inl (List.mem_cons_of_mem _ h)
        · exact Or.inr h
    · cases b <;> simp only [collapseSepsAux, hs, if_false] at h <;>
        rcases List.mem_cons.1 h with h | h
      · exact Or.inl (by simp [h])
      · rcases ih false c h with h | h
        · exact Or.inl (List.mem_cons_of_mem _ h)
        · exact Or.inr h
      · exact Or.inl (by simp [h])
      · rcases ih false c h with h | h
        · exact Or.inl (List.mem_cons_of_mem _ h)
        · exact Or.inr h

theorem splitOnSlashL_ne_nil (l : CPath) : splitOnSlashL l ≠ [] := by
  cases l with
  | nil => simp [splitOnSlashL]
  | cons c rest =>
    simp only [splitOnSlashL]
    cases splitOnSlashL rest with
    | nil => simp
    | cons h t =>
      by_cases hc : c = '/' <;> simp [hc]

theorem splitOnSlashL_no_slash (l : CPath) (h : '/' ∉ l) : splitOnSlashL l = [l] := by
  induction l with
  | nil => simp [splitOnSlashL]
  | cons c rest ih =>
    have hc : ¬(c = '/') := fun hcc => h (by simp [hcc])
    have hr : '/' ∉ rest := fun hm => h (List.mem_cons_of_mem _ hm)
    simp only [splitOnSlashL, ih hr]
    simp [hc]

theorem splitOnSlashL_append (a r : CPath) (ha : '/' ∉ a) :
    splitOnSlashL (a ++ '/' :: r) = a :: splitOnSlashL r := by
  induction a with
  | nil =>
    simp only [List.nil_append, splitOnSlashL]
    cases hs : splitOnSlashL r with
    | nil => exact absurd hs (splitOnSlashL_ne_nil r)
    | cons h t => simp
  | cons c a' ih =>
    have hc : ¬(c = '/') := fun hcc => ha (by simp [hcc])
    have ha' : '/' ∉ a' := fun hm => ha (List.mem_cons_of_mem _ hm)
    simp only [List.cons_append, splitOnSlashL, List.append_eq]
    rw [ih ha']
    simp [hc]

theorem slash_decomp (l : CPath) (h : '/' ∈ l) :
    ∃ a r, l = a ++ '/' :: r ∧ '/' ∉ a := by
  induction l with
  | nil => simp at h
  | cons c rest ih =>
    by_cases hc : c = '/'
    · exact ⟨[], rest, by simp [hc], by simp⟩
    · have hr : '/' ∈ rest := by
        rcases List.mem_cons.1 h with h | h
        · exact absurd h.symm hc
        · exact h
      obtain ⟨a, r, heq, hna⟩ := ih hr
      refine ⟨c :: a, r, by simp [heq], ?_⟩
      intro hmem
      rcases List.mem_cons.1 hmem with h1 | h1
      · exact hc h1.symm
      · exact hna h1

theorem head?_ne_of_not_mem {c : Char} {l : CPath} (h : c ∉ l) : l.head? ≠ some c := by
  cases l with
  | nil => simp
  | cons x rest =>
    simp only [List.head?, ne_eq, Option.some.injEq]
    intro hx
    exact h (by simp [hx])

theorem getLast?_ne_of_not_mem {c : Char} {l : CPath} (h : c ∉ l) : l.getLast? ≠ some c := by
  intro hl
  obtain ⟨hne, heq⟩ := List.mem_getLast?_eq_getLast (Option.mem_def.2 hl)
  exact h (heq ▸ List.getLast_mem hne)

theorem foldl_joinFold_eq (n : Nat) :
    ∀ (l acc : CPath), l.length ≤ n → List.Chain' noTwoSlash l →
      l.head? ≠ some '/' → acc ≠ [] → acc.getLast? ≠ some '/' →
      (splitOnSlashL l).foldl joinFold acc = acc ++ '/' :: l := by
  induction n with
  | zero =>
    intro l acc hlen _ _ hacc hlast
    have hl : l = [] := List.length_eq_zero.1 (Nat.le_zero.1 hlen)
    subst hl
    simp [splitOnSlashL, joinFold, hacc, hlast]
  | succ m ih =>
    intro l acc hlen hch hhd hacc hlast
    by_cases hsl : '/' ∈ l
    · obtain ⟨a, r, heq, hna⟩ := slash_decomp l hsl
      subst heq
      have hane : a ≠ [] := by
        intro h0; subst h0; exact hhd (by simp)
      rw [splitOnSlashL_append a r hna]
      have hstep : joinFold acc a = acc ++ '/' :: a := by
        simp [joinFold, head?_ne_of_not_mem hna, hacc, hlast]
      have hchr : List.Chain' noTwoSlash ('/' :: r) :=
        ((List.chain'_append.1 hch).2).1
      have hrch : List.Chain' noTwoSlash r := (List.chain'_cons'.1 hchr).2
      have hrhd : r.head? ≠ some '/' := by
        intro hh
        exact (List.chain'_cons'.1 hchr).1 '/' hh ⟨rfl, rfl⟩
      have hrlen : r.length ≤ m := by
        have := hlen
        simp only [List.length_append, List.length_cons] at this
        omega
      have hacc' : acc ++ '/' :: a ≠ [] := by simp
      have hlast' : (acc ++ '/' :: a).getLast? ≠ some '/' := by
        rw [List.getLast?_append_of_ne_nil acc (by simp : ('/' :: a : CPath) ≠ [])]
        cases a with
        | nil => exact absurd rfl hane
        | cons x a' =>
          rw [List.getLast?_cons_cons]
          exact getLast?_ne_of_not_mem hna
      calc (a :: splitOnSlashL r).foldl joinFold acc
          = (splitOnSlashL r).foldl joinFold (joinFold acc a) := rfl
        _ = (splitOnSlashL r).foldl joinFold (acc ++ '/' :: a) := by rw [hstep]
        _ = (acc ++ '/' :: a) ++ '/' :: r := ih r (acc ++ '/' :: a) hrlen hrch hrhd hacc' hlast'
        _ = acc ++ '/' :: (a ++ '/' :: r) := by simp
    · rw [splitOnSlashL_no_slash l hsl]
      simp [joinFold, hhd, hacc, hlast]

theorem mem_of_mem_dropWhile {c : Char} {q : Char → Bool} :
    ∀ {l : CPath}, c ∈ l.dropWhile q → c ∈ l := by
  intro l
  induction l with
  | nil => simp [List.dropWhile]
  | cons x rest ih =>
    intro h
    rw [List.dropWhile_cons] at h
    by_cases hx : q x = true
    · simp only [hx, if_true] at h
      exact List.mem_cons_of_mem _ (ih h)
    · simp only [hx] at h
      simpa using h

theorem contains_eq_false_of_not_mem {c : Char} {l : CPath} (h : c ∉ l) :
    l.contains c = false := by
  induction l with
  | nil => rfl
  | cons x rest ih =>
    have hx : ¬(c = x) := fun hxc => h (by simp [hxc])
    have hr : c ∉ rest := fun hm => h (List.mem_cons_of_mem _ hm)
    have hbeq : (c == x) = false := beq_eq_false_iff_ne.2 hx
    show List.elem c (x :: rest) = false
    simp only [List.elem, hbeq]
    exact ih hr

theorem dropWhile_bs_of_head_ne {l : CPath} (h : '\\' ∉ l) :
    l.dropWhile (fun c => c = '\\') = l := by
  cases l with
  | nil => rfl
  | cons x rest =>
    have hx : ¬(x = '\\') := fun hxc => h (by simp [hxc])
    simp [List.dropWhile_cons, hx]

theorem join_split_eq (l : CPath) (hch : List.Chain' noTwoSlash l)
    (hhd : l.head? ≠ some '/') : posixJoinL (splitOnSlashL l) = l := by
  by_cases hsl : '/' ∈ l
  · obtain ⟨a, r, heq, hna⟩ := slash_decomp l hsl
    subst heq
    have hane : a ≠ [] := by
      intro h0; subst h0; exact hhd (by simp)
    rw [splitOnSlashL_append a r hna]
    show (splitOnSlashL r).foldl joinFold a = a ++ '/' :: r
    have hchr : List.Chain' noTwoSlash ('/' :: r) :=
      ((List.chain'_append.1 hch).2).1
    exact foldl_joinFold_eq r.length r a le_rfl (List.chain'_cons'.1 hchr).2
      (fun hh => (List.chain'_cons'.1 hchr).1 '/' hh ⟨rfl, rfl⟩) hane
      (getLast?_ne_of_not_mem hna)
  · rw [splitOnSlashL_no_slash l hsl]
    rfl

theorem join_split_slash (r : CPath) (hch : List.Chain' noTwoSlash r)
    (hhd : r.head? ≠ some '/') : posixJoinL (splitOnSlashL ('/' :: r)) = r := by
  have hsplit : splitOnSlashL ('/' :: r) = [] :: splitOnSlashL r := by
    simpa using splitOnSlashL_append [] r (by simp)
  rw [hsplit]
  show (splitOnSlashL r).foldl joinFold [] = r
  by_cases hsl : '/' ∈ r
  · obtain ⟨a, r', heq, hna⟩ := slash_decomp r hsl
    subst heq
    have hane : a ≠ [] := by
      intro h0; subst h0; exact hhd (by simp)
    rw [splitOnSlashL_append a r' hna]
    have h1 : joinFold [] a = a := by
      simp [joinFold, head?_ne_of_not_mem hna]
    show (splitOnSlashL r').foldl joinFold (joinFold [] a) = a ++ '/' :: r'
    rw [h1]
    have hchr : List.Chain' noTwoSlash ('/' :: r') :=
      ((List.chain'_append.1 hch).2).1
    exact foldl_joinFold_eq r'.length r' a le_rfl (List.chain'_cons'.1 hchr).2
      (fun hh => (List.chain'_cons'.1 hchr).1 '/' hh ⟨rfl, rfl⟩) hane
      (getLast?_ne_of_not_mem hna)
  · rw [splitOnSlashL_no_slash r hsl]
    show joinFold [] r = r
    simp [joinFold, hhd]

theorem pfxOf_cases (l : CPath) :
    pfxOf l = [] ∨ pfxOf l = ['/'] ∨ pfxOf l = ['\\', '\\'] := by
  unfold pfxOf
  by_cases h1 : l.take 2 = ['\\', '\\']
  · simp [h1]
  · by_cases h2 : l.head? = some '/' <;> simp [h1, h2]

theorem norm_of_clean (l : CPath) (hbs : '\\' ∉ l) (hch : List.Chain' noTwoSlash l) :
    ∃ n : CPath, posixJoinL (splitOnSlashL l) = n ∧ '\\' ∉ n ∧
      List.Chain' noTwoSlash n ∧ n.head? ≠ some '/' ∧ (∀ c, c ∈ n → c ∈ l) := by
  cases l with
  | nil => exact ⟨[], rfl, by simp, by simp, by simp, by simp⟩
  | cons c rest =>
    by_cases hc : c = '/'
    · subst hc
      have hrch : List.Chain' noTwoSlash rest := (List.chain'_cons'.1 hch).2
      have hrhd : rest.head? ≠ some '/' := fun hh =>
        (List.chain'_cons'.1 hch).1 '/' hh ⟨rfl, rfl⟩
      refine ⟨rest, join_split_slash rest hrch hrhd, ?_, hrch, hrhd, ?_⟩
      · exact fun hm => hbs (List.mem_cons_of_mem _ hm)
      · exact fun d hd => List.mem_cons_of_mem _ hd
    · have hhd : (c :: rest).head? ≠ some '/' := by
        simp only [List.head?, ne_eq, Option.some.injEq]
        exact hc
      exact ⟨c :: rest, join_split_eq _ hch hhd, hbs, hch, hhd, fun d hd => hd⟩

theorem fixpathL_shape (p : CPath) (hcolon : ':' ∉ p) :
    ∃ n : CPath, fixpathL p = pfxOf p ++ n ∧ '\\' ∉ n ∧
      List.Chain' noTwoSlash n ∧ n.head? ≠ some '/' ∧ ':' ∉ n := by
  obtain ⟨n, heq, hbs, hch, hhd, hsub⟩ :=
    norm_of_clean (collapseSeps (p.dropWhile (fun c => c = '\\')))
      (collapseSepsAux_not_bs _ false) (collapseSepsAux_chain _ false)
  have hcol : ':' ∉ n := by
    intro hm
    rcases collapseSepsAux_mem _ false ':' (hsub ':' hm) with h | h
    · exact hcolon (mem_of_mem_dropWhile h)
    · exact absurd h (by decide)
  refine ⟨n, ?_, hbs, hch, hhd, hcol⟩
  simp only [fixpathL]
  rw [heq, contains_eq_false_of_not_mem hcol]
  simp

theorem fixpathL_fixed (n : CPath) (hbs : '\\' ∉ n) (hch : List.Chain' noTwoSlash n)
    (hhd : n.head? ≠ some '/') (hcolon : ':' ∉ n) :
    fixpathL n = n ∧ fixpathL ('/' :: n) = '/' :: n ∧
      fixpathL ('\\' :: '\\' :: n) = '\\' :: '\\' :: n := by
  have hid := collapseSepsAux_id n hbs hch
  have hcontains : n.contains ':' = false := contains_eq_false_of_not_mem hcolon
  have hdw : n.dropWhile (fun c => c = '\\') = n := dropWhile_bs_of_head_ne hbs
  have hcl : collapseSeps n = n := hid.1
  have hjs : posixJoinL (splitOnSlashL n) = n := join_split_eq n hch hhd
  refine ⟨?_, ?_, ?_⟩
  · have hpfx : pfxOf n = [] := by
      unfold pfxOf
      cases n with
      | nil => simp
      | cons c rest =>
        have hc1 : ¬(c = '\\') := fun hcc => hbs (by simp [hcc])
        have hc2 : ¬(c = '/') := by
          intro hcc
          exact hhd (by simp [hcc])
        have ht : (c :: rest).take 2 ≠ ['\\', '\\'] := by
          intro hcontra
          apply hc1
          have := congrArg (fun l => l.head?) hcontra
          simpa using this
        rw [if_neg ht]
        simp [hc2]
    simp only [fixpathL]
    rw [hpfx, hdw, hcl, hjs, hcontains]
    simp
  · have hpfx : pfxOf ('/' :: n) = ['/'] := by
      unfold pfxOf
      have ht : ('/' :: n).take 2 ≠ ['\\', '\\'] := by
        cases n <;> simp
      simp [ht]
    have hdw2 : ('/' :: n).dropWhile (fun c => c = '\\') = '/' :: n := by
      simp [List.dropWhile_cons]
    have hcl2 : collapseSeps ('/' :: n) = '/' :: n := by
      show collapseSepsAux false ('/' :: n) = '/' :: n
      have : isSepChar '/' = true := by decide
      simp only [collapseSepsAux, this, if_true]
      rw [hid.2 hhd]
      simp
    have hjs2 : posixJoinL (splitOnSlashL ('/' :: n)) = n :=
      join_split_slash n hch hhd
    simp only [fixpathL]
    rw [hpfx, hdw2, hcl2, hjs2, hcontains]
    simp
  · have hpfx : pfxOf ('\\' :: '\\' :: n) = ['\\', '\\'] := by
      unfold pfxOf
      simp
    have hdw2 : ('\\' :: '\\' :: n).dropWhile (fun c => c = '\\') = n := by
      simp only [List.dropWhile_cons]
      simp [hdw]
    simp only [fixpathL]
    rw [hpfx, hdw2, hcl, hjs, hcontains]
    simp

/-- C8 amended: normalization is idempotent for every input containing no
colon character: `fixpath (fixpath p) = fixpath p` whenever `':' ∉ p`.
(The colon/drive-letter rewriting step is what breaks idempotence in
general, see the counterexample.) -/
theorem fixpath_idempotent_of_no_colon (p : String) (h : ':' ∉ p.toList) :
    fixpath (fixpath p) = fixpath p := by
  obtain ⟨n, heq, hbs, hch, hhd, hcol⟩ := fixpathL_shape p.toList h
  have hfix := fixpathL_fixed n hbs hch hhd hcol
  have hkey : fixpathL (fixpathL p.toList) = fixpathL p.toList := by
    rw [heq]
    rcases pfxOf_cases p.toList with hp | hp | hp <;> rw [hp]
    · simpa using hfix.1
    · simpa using hfix.2.1
    · simpa using hfix.2.2
  show (⟨fixpathL (fixpath p).toList⟩ : String) = fixpath p
  have htl : (fixpath p).toList = fixpathL p.toList := rfl
  rw [htl, hkey]
  rfl

/-- Witness for the amended C8 theorem at the concrete path `a//b\c`. -/
theorem fixpath_idempotent_witness :
    ':' ∉ "a//b\\c".toList ∧ fixpath (fixpath "a//b\\c") = fixpath "a//b\\c" :=
  ⟨by decide, fixpath_idempotent_of_no_colon "a//b\\c" (by decide)⟩

/-! ### Supporting lemmas for archive-format scanning -/

theorem scan_fold_result (src : CPath) (exts : List CPath) :
    ∀ acc : Bool × CPath,
      (exts.foldl (scanStep src) acc = acc ∧ ∀ e ∈ exts, e.isSuffixOf src = false) ∨
      ((exts.foldl (scanStep src) acc).1 = true ∧
        (exts.foldl (scanStep src) acc).2 ∈ exts ∧
        (exts.foldl (scanStep src) acc).2.isSuffixOf src = true) := by
  induction exts with
  | nil => intro acc; exact Or.inl ⟨rfl, by simp⟩
  | cons ext rest ih =>
    intro acc
    by_cases hs : ext.isSuffixOf src = true
    · have hstep : scanStep src acc ext = (true, ext) := by
        simp [scanStep, hs]
      rcases ih (true, ext) with ⟨heq, _⟩ | ⟨h1, h2, h3⟩
      · refine Or.inr ?_
        simp only [List.foldl_cons, hstep, heq]
        exact ⟨by trivial, by simp, hs⟩
      · refine Or.inr ?_
        simp only [List.foldl_cons, hstep]
        exact ⟨h1, List.mem_cons_of_mem _ h2, h3⟩
    · have hstep : scanStep src acc ext = acc := by
        simp [scanStep, hs]
      rcases ih acc with ⟨heq, hnone⟩ | ⟨h1, h2, h3⟩
      · refine Or.inl ?_
        simp only [List.foldl_cons, hstep, heq]
        refine ⟨by trivial, ?_⟩
        intro e he
        rcases List.mem_cons.1 he with he1 | he1
        · subst he1; exact Bool.eq_false_iff.2 hs
        · exact hnone e he1
      · refine Or.inr ?_
        simp only [List.foldl_cons, hstep]
        exact ⟨h1, List.mem_cons_of_mem _ h2, h3⟩

theorem unpackExtensions_unique_suffix :
    ∀ e₁ ∈ unpackExtensions, ∀ e₂ ∈ unpackExtensions,
      e₁.isSuffixOf e₂ = true → e₁ = e₂ := by decide

theorem unpackExtensions_ne_nil : ∀ e ∈ unpackExtensions, e ≠ [] := by decide

/-- C7: when `_check_valid_unpack` reports a valid format, the extension it
returns is a registered archive extension that the source path ends with, it
is the longest registered extension matching the source, and the default
destination derived by `run_unpack` is the source with that suffix removed
exactly once (appending the extension back yields the source). -/
theorem unpack_default_destination (dirExists : Bool) (src : CPath)
    (hvalid : (check_valid_unpack dirExists src).1 = true) :
    (check_valid_unpack dirExists src).2 ∈ unpackExtensions ∧
    (check_valid_unpack dirExists src).2 <:+ src ∧
    (∀ e ∈ unpackExtensions, e <:+ src →
      e.length ≤ (check_valid_unpack dirExists src).2.length) ∧
    runUnpackDefaultDst dirExists src ++ (check_valid_unpack dirExists src).2 = src := by
  cases dirExists with
  | false => exact absurd hvalid (by simp [check_valid_unpack])
  | true =>
    have hcv : check_valid_unpack true src = scanUnpackFormats src := rfl
    rcases scan_fold_result src unpackExtensions (false, []) with ⟨heq, _⟩ | ⟨h1, h2, h3⟩
    · exact absurd hvalid (by simp [hcv, scanUnpackFormats, heq])
    · have hmem : (check_valid_unpack true src).2 ∈ unpackExtensions := h2
      have hsufb : (check_valid_unpack true src).2.isSuffixOf src = true := h3
      have hsuf : (check_valid_unpack true src).2 <:+ src :=
        List.isSuffixOf_iff_suffix.1 hsufb
      refine ⟨hmem, hsuf, ?_, ?_⟩
      · intro e he hesuf
        rcases le_or_lt e.length (check_valid_unpack true src).2.length with hle | hlt
        · exact hle
        · exfalso
          have hsub : (check_valid_unpack true src).2 <:+ e :=
            List.suffix_of_suffix_length_le hsuf hesuf (Nat.le_of_lt hlt)
          have := unpackExtensions_unique_suffix _ hmem e he
            (List.isSuffixOf_iff_suffix.2 hsub)
          rw [this] at hlt
          exact Nat.lt_irrefl _ hlt
      · obtain ⟨t, ht⟩ := hsuf
        have hne : (check_valid_unpack true src).2 ≠ [] :=
          unpackExtensions_ne_nil _ hmem
        have hdst : runUnpackDefaultDst true src = t := by
          unfold runUnpackDefaultDst removesuffixL
          rw [if_pos ⟨hne, hsufb⟩]
          have hlen : src.length - (check_valid_unpack true src).2.length = t.length := by
            have hcg := congrArg List.length ht
            simp only [List.length_append] at hcg
            omega
          rw [hlen, ← ht]
          exact List.take_left t _
        rw [hdst, ht]

/-- Witness for C7 at the concrete source path `data/files.tar.gz`: the
matched extension is `.tar.gz` and the derived destination is `data/files`. -/
theorem unpack_default_destination_witness :
    (check_valid_unpack true (strL "data/files.tar.gz")).1 = true ∧
    runUnpackDefaultDst true (strL "data/files.tar.gz") = strL "data/files" ∧
    ((check_valid_unpack true (strL "data/files.tar.gz")).2 ∈ unpackExtensions ∧
     (check_valid_unpack true (strL "data/files.tar.gz")).2 <:+ strL "data/files.tar.gz" ∧
     (∀ e ∈ unpackExtensions, e <:+ strL "data/files.tar.gz" →
       e.length ≤ (check_valid_unpack true (strL "data/files.tar.gz")).2.length) ∧
     runUnpackDefaultDst true (strL "data/files.tar.gz") ++
       (check_valid_unpack true (strL "data/files.tar.gz")).2 = strL "data/files.tar.gz") :=
  ⟨by decide, by decide, unpack_default_destination true (strL "data/files.tar.gz") (by decide)⟩

/-! ### The recursive unpacker -/

/-- C5: the claimed behavior â `unpackAllInFolder([root], recursive=True,
overwrite=True)` on a root containing `outer.zip` (whose extraction produces
`inner.zip`) extracts both archives and halts at the first pass that finds
nothing new â is what the pass loop of dirops.py lines 102-141 computes, but
the invocation never reaches it: the progress message on line 99 looks up
`utils.VAR['print_tast_div']`, the key is absent from `utils.VAR` (which
holds only `ss_extensions`), and the resulting uncaught `KeyError` aborts the
invocation at its first root, before any walk or extraction, for every
amount of fuel. -/
theorem recursive_unpack_aborts :
    "print_tast_div" ∉ utilsVARKeys ∧
    ∀ fuel : Nat,
      runUnpackAllInFolder nestedExtract true true fuel [strL "root"] nestedStart =
        none :=
  ⟨by decide, fun _ => rfl⟩

/-- C6 counterexample: with the same archive reachable from two root sources
of one invocation â `unpackAllInFolder(["r", "r"])` with `r` containing
`a.zip` â the shared-per-invocation-ledger behavior that the claim describes
(`runUnpackAllSharedLedger`, modelled from the specification's words) would
complete and extract `a.zip` exactly once, while the source's invocation
(`runUnpackAllInFolder`) raises the uncaught `KeyError` of dirops.py line 99
at the first root's progress message and aborts, extracting nothing â so no
per-invocation shared ledger governing extraction exists in the code.  (In
the loop body behind the failing lookup the ledger variable `unpacked_dirs`
is moreover re-initialized for every root, line 104.) -/
theorem ledger_not_shared_across_roots :
    runUnpackAllInFolder (fun _ => []) true true 3
        [strL "r", strL "r"] ⟨[strL "r/a.zip"], [], [], []⟩ = none ∧
    ((runUnpackAllSharedLedger (fun _ => []) true true 3
        [strL "r", strL "r"] ⟨[strL "r/a.zip"], [], [], []⟩).log).count
      (strL "r/a.zip") = 1 :=
  ⟨rfl, by decide⟩

/-- C6 amended: every `unpackAllInFolder` invocation with at least one root
source raises the uncaught `KeyError` of dirops.py line 99
(`utils.VAR['print_tast_div']`, a key never present in `utils.VAR`) while
building the first root's progress message, before any ledger is created,
any directory walked, or any archive extracted; the invocation aborts with
nothing extracted, regardless of the archive-content map, the override flag,
the recursive flag, the fuel, or the starting state. -/
theorem unpack_invocation_aborts (extract : CPath → List CPath)
    (ov recurse : Bool) (fuel : Nat) (roots : List CPath) (st : UnpState)
    (h : roots ≠ []) :
    runUnpackAllInFolder extract ov recurse fuel roots st = none := by
  cases roots with
  | nil => exact absurd rfl h
  | cons root rest =>
    show (match runRoot extract ov recurse root fuel st with
          | none => none
          | some st1 => runUnpackAllInFolder extract ov recurse fuel rest st1) =
        none
    have hr : runRoot extract ov recurse root fuel st = none := rfl
    rw [hr]

theorem unpack_invocation_aborts_witness :
    ([strL "r"] ≠ ([] : List CPath)) ∧
    runUnpackAllInFolder (fun _ => []) true true 3 [strL "r"]
      ⟨[strL "r/a.zip"], [], [], []⟩ = none :=
  ⟨by decide,
   unpack_invocation_aborts (fun _ => []) true true 3 [strL "r"]
     ⟨[strL "r/a.zip"], [], [], []⟩ (by decide)⟩

/-! ### Supporting lemmas for the tree synchronizer -/

theorem lookupF_setF (fs : List (RPath × String)) (q : RPath) (c : String)
    (p : RPath) :
    lookupF (setF fs q c) p = if q = p then some c else lookupF fs p := by
  induction fs with
  | nil =>
    simp only [setF, lookupF]
  | cons e rest ih =>
    obtain ⟨k, d⟩ := e
    by_cases hk : k = q
    · subst hk
      simp only [setF, if_pos rfl, lookupF]
      by_cases hp : k = p
      · subst hp
        simp [lookupF]
      · simp [lookupF, hp]
    · simp only [setF, if_neg hk, lookupF]
      by_cases hp : k = p
      · subst hp
        have hq : ¬(q = k) := fun hqq => hk hqq.symm
        simp [lookupF, hq]
      · simp [lookupF, hp, ih]

theorem lookupF_removeF (fs : List (RPath × String)) (q p : RPath) :
    lookupF (removeF fs q) p = if q = p then none else lookupF fs p := by
  induction fs with
  | nil =>
    simp only [removeF, List.filter_nil, lookupF]
    split <;> rfl
  | cons e rest ih =>
    obtain ⟨k, d⟩ := e
    by_cases hk : k = q
    · subst hk
      have hstep : removeF ((k, d) :: rest) k = removeF rest k := by
        simp [removeF, List.filter_cons]
      rw [hstep, ih]
      by_cases hp : k = p
      · simp [hp]
      · simp only [if_neg hp, lookupF]
    · have hstep : removeF ((k, d) :: rest) q = (k, d) :: removeF rest q := by
        simp [removeF, List.filter_cons, hk]
      rw [hstep]
      simp only [lookupF]
      by_cases hp : k = p
      · subst hp
        have hq : ¬(q = k) := fun h => hk h.symm
        simp [hq]
      · simp only [if_neg hp, ih]

theorem fold_insertDir_mem (l : List RPath) :
    ∀ (ds : List RPath) (d : RPath), d ∈ ds ∨ d ∈ l →
      d ∈ l.foldl (fun acc x => if acc.contains x then acc else acc ++ [x]) ds := by
  induction l with
  | nil =>
    intro ds d h
    rcases h with h | h
    · exact h
    · simp at h
  | cons x rest ih =>
    intro ds d h
    simp only [List.foldl_cons]
    have hsub : ∀ a ∈ ds, a ∈ (if ds.contains x then ds else ds ++ [x]) := by
      intro a ha
      split
      · exact ha
      · exact List.mem_append_left _ ha
    rcases h with h | h
    · exact ih _ d (Or.inl (hsub d h))
    · rcases List.mem_cons.1 h with h1 | h1
      · subst h1
        refine ih _ d (Or.inl ?_)
        split
        case isTrue hc => exact List.mem_of_elem_eq_true hc
        case isFalse => exact List.mem_append_right _ (by simp)
      · exact ih _ d (Or.inr h1)

theorem fold_insertDir_bound (l : List RPath) :
    ∀ (ds : List RPath) (d : RPath),
      d ∈ l.foldl (fun acc x => if acc.contains x then acc else acc ++ [x]) ds →
      d ∈ ds ∨ d ∈ l := by
  induction l with
  | nil => intro ds d h; exact Or.inl h
  | cons x rest ih =>
    intro ds d h
    simp only [List.foldl_cons] at h
    rcases ih _ d h with h1 | h1
    · by_cases hc : ds.contains x = true
      · rw [if_pos hc] at h1
        exact Or.inl h1
      · rw [if_neg hc] at h1
        rcases List.mem_append.1 h1 with h2 | h2
        · exact Or.inl h2
        · simp at h2
          subst h2
          exact Or.inr (by simp)
    · exact Or.inr (List.mem_cons_of_mem _ h1)

theorem fold_insertDir_noop (l : List RPath) :
    ∀ ds : List RPath, (∀ d ∈ l, d ∈ ds) →
      l.foldl (fun acc x => if acc.contains x then acc else acc ++ [x]) ds = ds := by
  induction l with
  | nil => intro ds _; rfl
  | cons x rest ih =>
    intro ds h
    simp only [List.foldl_cons]
    rw [if_pos (List.elem_eq_true_of_mem (h x (by simp)))]
    exact ih ds (fun d hd => h d (List.mem_cons_of_mem _ hd))

theorem mkdirs_subset (ds : List RPath) (r : RPath) : ∀ d ∈ ds, d ∈ mkdirs ds r :=
  fun d hd => fold_insertDir_mem _ ds d (Or.inl hd)

theorem mkdirs_self (ds : List RPath) (r : RPath) : r ∈ mkdirs ds r :=
  fold_insertDir_mem _ ds r (Or.inr ((List.mem_inits r r).2 (List.prefix_refl r)))

theorem mkdirs_mem_of_mem_inits (ds : List RPath) (r d : RPath)
    (h : d ∈ r.inits) : d ∈ mkdirs ds r :=
  fold_insertDir_mem _ ds d (Or.inr h)

theorem mkdirs_bound (ds : List RPath) (r d : RPath) (h : d ∈ mkdirs ds r) :
    d ∈ ds ∨ d <+: r := by
  rcases fold_insertDir_bound _ ds d h with h1 | h1
  · exact Or.inl h1
  · exact Or.inr ((List.mem_inits d r).1 h1)

theorem mkdirs_noop (ds : List RPath) (r : RPath)
    (h : ∀ d ∈ r.inits, d ∈ ds) : mkdirs ds r = ds :=
  fold_insertDir_noop _ ds h

theorem not_prefix_append_singleton (root : RPath) (f : String) (r : RPath)
    (hpre : root <+: r) : ¬(r ++ [f] <+: root) := by
  intro h
  have h1 : (r ++ [f]).length ≤ root.length := h.length_le
  have h2 : root.length ≤ r.length := hpre.length_le
  simp only [List.length_append, List.length_cons, List.length_nil] at h1
  omega

theorem lookupF_setF_isSome (fs : List (RPath × String)) (q : RPath)
    (c : String) (p : RPath) (h : (lookupF fs p).isSome = true) :
    (lookupF (setF fs q c) p).isSome = true := by
  rw [lookupF_setF]
  split
  · rfl
  · exact h

theorem existsDst_mono_of (st st1 : SyncState)
    (hdirs : ∀ d ∈ st.dstDirs, d ∈ st1.dstDirs)
    (hfiles : ∀ p, (lookupF st.dstFiles p).isSome = true →
      (lookupF st1.dstFiles p).isSome = true) :
    ∀ p, existsDst st p = true → existsDst st1 p = true := by
  intro p hp
  unfold existsDst at hp ⊢
  simp only [Bool.or_eq_true] at hp ⊢
  rcases hp with h | h
  · exact Or.inl (hfiles p h)
  · exact Or.inr (List.elem_eq_true_of_mem (hdirs p (List.mem_of_elem_eq_true h)))

theorem copyOrMove_mono (mode : TransferMode) (root : RPath) (f : String)
    (st st1 : SyncState) (h : copyOrMove mode root f st = some st1) :
    (∀ d ∈ st.dstDirs, d ∈ st1.dstDirs) ∧
    (∀ p, existsDst st p = true → existsDst st1 p = true) := by
  simp only [copyOrMove] at h
  cases hl : lookupF st.srcFiles (root ++ [f]) with
  | none =>
    rw [hl] at h
    exact Option.noConfusion h
  | some content =>
    rw [hl] at h
    cases mode with
    | cp =>
      simp only at h
      split at h
      · split at h
        · exact Option.noConfusion h
        · injection h with h1
          subst h1
          exact ⟨fun d hd => mkdirs_subset _ _ d hd,
            existsDst_mono_of _ _ (fun d hd => mkdirs_subset _ _ d hd)
              (fun p hp => lookupF_setF_isSome _ _ _ _ hp)⟩
      · injection h with h1
        subst h1
        exact ⟨fun d hd => mkdirs_subset _ _ d hd,
          existsDst_mono_of _ _ (fun d hd => mkdirs_subset _ _ d hd)
            (fun p hp => lookupF_setF_isSome _ _ _ _ hp)⟩
    | mv =>
      simp only at h
      split at h
      · split at h
        · exact Option.noConfusion h
        · injection h with h1
          subst h1
          exact ⟨fun d hd => hd,
            existsDst_mono_of _ _ (fun d hd => hd)
              (fun p hp => lookupF_setF_isSome _ _ _ _ hp)⟩
      · split at h
        · injection h with h1
          subst h1
          exact ⟨fun d hd => hd,
            existsDst_mono_of _ _ (fun d hd => hd)
              (fun p hp => lookupF_setF_isSome _ _ _ _ hp)⟩
        · exact Option.noConfusion h

theorem runFiles_mono (mode : TransferMode) (onlf ignf : Option (String → Bool))
    (ov : Bool) (root : RPath) (fs : List String) :
    ∀ (st st1 : SyncState), runFiles mode onlf ignf ov root fs st = some st1 →
      (∀ d ∈ st.dstDirs, d ∈ st1.dstDirs) ∧
      (∀ p, existsDst st p = true → existsDst st1 p = true) := by
  induction fs with
  | nil =>
    intro st st1 h
    injection h with h1
    subst h1
    exact ⟨fun d hd => hd, fun p hp => hp⟩
  | cons f fs' ih =>
    intro st st1 h
    unfold runFiles at h
    by_cases hinc : shouldInclude onlf ignf f = true
    · rw [if_pos hinc] at h
      by_cases hov : ov = true
      · rw [if_pos hov] at h
        cases hcm : copyOrMove mode root f st with
        | none => rw [hcm] at h; exact Option.noConfusion h
        | some stm =>
          rw [hcm] at h
          obtain ⟨hmd, hme⟩ := copyOrMove_mono mode root f st stm hcm
          obtain ⟨hd, he⟩ := ih stm st1 h
          exact ⟨fun d hdd => hd d (hmd d hdd), fun p hp => he p (hme p hp)⟩
      · rw [if_neg hov] at h
        by_cases hex : existsDst st (root ++ [f]) = true
        · rw [if_pos hex] at h
          exact ih st st1 h
        · rw [if_neg hex] at h
          cases hcm : copyOrMove mode root f st with
          | none => rw [hcm] at h; exact Option.noConfusion h
          | some stm =>
            rw [hcm] at h
            obtain ⟨hmd, hme⟩ := copyOrMove_mono mode root f st stm hcm
            obtain ⟨hd, he⟩ := ih stm st1 h
            exact ⟨fun d hdd => hd d (hmd d hdd), fun p hp => he p (hme p hp)⟩
    · rw [if_neg hinc] at h
      exact ih st st1 h

theorem runDir_mono (mode : TransferMode) (onlf ignf : Option (String → Bool))
    (ov : Bool) (walk : List (RPath × List String)) :
    ∀ (st st1 : SyncState), runDir mode onlf ignf ov walk st = some st1 →
      (∀ d ∈ st.dstDirs, d ∈ st1.dstDirs) ∧
      (∀ p, existsDst st p = true → existsDst st1 p = true) := by
  induction walk with
  | nil =>
    intro st st1 h
    injection h with h1
    subst h1
    exact ⟨fun d hd => hd, fun p hp => hp⟩
  | cons entry rest ih =>
    obtain ⟨root, files⟩ := entry
    intro st st1 h
    simp only [runDir] at h
    by_cases hfilters : (onlf.isNone && ignf.isNone) = true
    · rw [if_pos hfilters] at h
      cases hf : runFiles mode onlf ignf ov root files
          { st with dstDirs := mkdirs st.dstDirs root } with
      | none => rw [hf] at h; exact Option.noConfusion h
      | some stA =>
        rw [hf] at h
        obtain ⟨hfd, hfe⟩ := runFiles_mono mode onlf ignf ov root files _ stA hf
        obtain ⟨hrd, hre⟩ := ih stA st1 h
        refine ⟨fun d hd => hrd d (hfd d (mkdirs_subset _ _ d hd)),
                fun p hp => hre p (hfe p ?_)⟩
        exact existsDst_mono_of st { st with dstDirs := mkdirs st.dstDirs root }
          (fun d hd => mkdirs_subset _ _ d hd) (fun r hr => hr) p hp
    · rw [if_neg hfilters] at h
      cases hf : runFiles mode onlf ignf ov root files st with
      | none => rw [hf] at h; exact Option.noConfusion h
      | some stA =>
        rw [hf] at h
        obtain ⟨hfd, hfe⟩ := runFiles_mono mode onlf ignf ov root files st stA hf
        obtain ⟨hrd, hre⟩ := ih stA st1 h
        exact ⟨fun d hd => hrd d (hfd d hd), fun p hp => hre p (hfe p hp)⟩

/-- C10: in a directory-source sync with neither filter set, the mirrored
destination directory is created for every directory visited in the source
walk, in both copy and move mode and regardless of the overwrite policy:
whenever the run completes, every walked directory's mirror is in the
destination directory set — even when every individual file transfer was
skipped because the destination file already existed. -/
theorem sync_creates_dir_skeleton (mode : TransferMode) (ov : Bool)
    (walk : List (RPath × List String)) :
    ∀ (st st1 : SyncState), runDir mode none none ov walk st = some st1 →
      ∀ e ∈ walk, e.1 ∈ st1.dstDirs := by
  induction walk with
  | nil =>
    intro st st1 h e he
    exact absurd he (List.not_mem_nil e)
  | cons entry rest ih =>
    obtain ⟨root, files⟩ := entry
    intro st st1 h e he
    simp only [runDir] at h
    have hfilters : ((none : Option (String → Bool)).isNone &&
        (none : Option (String → Bool)).isNone) = true := rfl
    rw [if_pos hfilters] at h
    cases hf : runFiles mode none none ov root files
        { st with dstDirs := mkdirs st.dstDirs root } with
    | none => rw [hf] at h; exact Option.noConfusion h
    | some stA =>
      rw [hf] at h
      rcases List.mem_cons.1 he with he1 | he1
      · subst he1
        have h1 : root ∈ stA.dstDirs :=
          (runFiles_mono mode none none ov root files _ stA hf).1 root
            (mkdirs_self _ _)
        exact (runDir_mono mode none none ov rest stA st1 h).1 root h1
      · exact ih stA st1 h e he1

/-- Witness for C10: move mode under never-overwrite where both destination
files already exist, so both transfers are skipped, yet the mirror of the
visited subdirectory `sub` is still created under the destination. -/
theorem sync_creates_dir_skeleton_witness :
    runDir TransferMode.mv none none false
        [([], ["a.txt"]), (["sub"], ["b.txt"])]
        ⟨[(["a.txt"], "x"), (["sub", "b.txt"], "y")], [[]],
         [(["a.txt"], "q"), (["sub", "b.txt"], "r")]⟩ =
      some ⟨[(["a.txt"], "x"), (["sub", "b.txt"], "y")], [[], ["sub"]],
            [(["a.txt"], "q"), (["sub", "b.txt"], "r")]⟩ ∧
    ∀ e ∈ [(([] : RPath), ["a.txt"]), ((["sub"] : RPath), ["b.txt"])],
      e.1 ∈ (⟨[(["a.txt"], "x"), (["sub", "b.txt"], "y")], [[], ["sub"]],
              [(["a.txt"], "q"), (["sub", "b.txt"], "r")]⟩ : SyncState).dstDirs :=
  ⟨by decide,
   sync_creates_dir_skeleton TransferMode.mv false
     [([], ["a.txt"]), (["sub"], ["b.txt"])]
     ⟨[(["a.txt"], "x"), (["sub", "b.txt"], "y")], [[]],
      [(["a.txt"], "q"), (["sub", "b.txt"], "r")]⟩
     ⟨[(["a.txt"], "x"), (["sub", "b.txt"], "y")], [[], ["sub"]],
      [(["a.txt"], "q"), (["sub", "b.txt"], "r")]⟩ (by decide)⟩

/-- C3 counterexample: under the never-overwrite policy, a qualifying source
file whose mirrored destination already exists is skipped by the move, so
after `sync(Move, task, NeverOverwrite)` the file still exists at its source
path (content `x` untouched) and the destination keeps its old content `y` —
move is not destructive for every overwrite policy. -/
theorem move_skips_existing_destination :
    runDir TransferMode.mv none none false [([], ["a.txt"])]
        ⟨[(["a.txt"], "x")], [[]], [(["a.txt"], "y")]⟩ =
      some ⟨[(["a.txt"], "x")], [[]], [(["a.txt"], "y")]⟩ ∧
    lookupF [(["a.txt"], "x")] ["a.txt"] = some "x" ∧
    shouldInclude none none "a.txt" = true :=
  ⟨by decide, by decide, by decide⟩

/-- C4 counterexample: in move mode with a filter set (so the walk creates
no destination directories) the per-file transfer performs no
`os.makedirs`: moving the qualifying file `sub/b.txt` fails with an
uncaught exception (`none`) merely because the destination's parent
directory `sub` does not yet exist, even though the destination root does. -/
theorem move_fails_without_destination_parent :
    runDir TransferMode.mv (some (fun s => s = "b.txt")) none true
        [(["sub"], ["b.txt"])] ⟨[(["sub", "b.txt"], "y")], [[]], []⟩ = none :=
  by decide

theorem runFiles_cp_post (onlf ignf : Option (String → Bool)) (root : RPath)
    (fs : List String) :
    ∀ (st st1 : SyncState),
      runFiles TransferMode.cp onlf ignf false root fs st = some st1 →
      ∀ f ∈ fs, shouldInclude onlf ignf f = true →
        existsDst st1 (root ++ [f]) = true := by
  induction fs with
  | nil =>
    intro st st1 h f hf
    exact absurd hf (List.not_mem_nil f)
  | cons f fs' ih =>
    intro st st1 h g hg hginc
    unfold runFiles at h
    by_cases hinc : shouldInclude onlf ignf f = true
    · rw [if_pos hinc, if_neg (by decide : ¬(false = true))] at h
      by_cases hex : existsDst st (root ++ [f]) = true
      · rw [if_pos hex] at h
        rcases List.mem_cons.1 hg with hg1 | hg1
        · subst hg1
          exact (runFiles_mono TransferMode.cp onlf ignf false root fs' st st1 h).2
            _ hex
        · exact ih st st1 h g hg1 hginc
      · rw [if_neg hex] at h
        cases hcm : copyOrMove TransferMode.cp root f st with
        | none => rw [hcm] at h; exact Option.noConfusion h
        | some stm =>
          rw [hcm] at h
          rcases List.mem_cons.1 hg with hg1 | hg1
          · subst hg1
            have hexm : existsDst stm (root ++ [g]) = true := by
              simp only [copyOrMove] at hcm
              cases hl : lookupF st.srcFiles (root ++ [g]) with
              | none => rw [hl] at hcm; exact Option.noConfusion hcm
              | some content =>
                rw [hl] at hcm
                simp only at hcm
                have hnotc : (mkdirs st.dstDirs root).contains (root ++ [g]) ≠ true := by
                  intro hcont
                  rcases mkdirs_bound st.dstDirs root _
                      (List.mem_of_elem_eq_true hcont) with hh | hh
                  · apply hex
                    unfold existsDst
                    simp only [Bool.or_eq_true]
                    exact Or.inr (List.elem_eq_true_of_mem hh)
                  · exact not_prefix_append_singleton root g root
                      (List.prefix_refl root) hh
                rw [if_neg hnotc] at hcm
                injection hcm with hcm1
                subst hcm1
                unfold existsDst
                simp only [Bool.or_eq_true]
                refine Or.inl ?_
                rw [lookupF_setF]
                simp
            exact (runFiles_mono TransferMode.cp onlf ignf false root fs' stm st1 h).2
              _ hexm
          · exact ih stm st1 h g hg1 hginc
    · rw [if_neg hinc] at h
      rcases List.mem_cons.1 hg with hg1 | hg1
      · subst hg1
        exact absurd hginc hinc
      · exact ih st st1 h g hg1 hginc

theorem runFiles_cp_noop (onlf ignf : Option (String → Bool)) (root : RPath)
    (fs : List String) (st : SyncState)
    (h : ∀ f ∈ fs, shouldInclude onlf ignf f = true →
      existsDst st (root ++ [f]) = true) :
    runFiles TransferMode.cp onlf ignf false root fs st = some st := by
  induction fs with
  | nil => rfl
  | cons f fs' ih =>
    unfold runFiles
    by_cases hinc : shouldInclude onlf ignf f = true
    · rw [if_pos hinc, if_neg (by decide : ¬(false = true)),
        if_pos (h f (by simp) hinc)]
      exact ih (fun g hg => h g (List.mem_cons_of_mem _ hg))
    · rw [if_neg hinc]
      exact ih (fun g hg => h g (List.mem_cons_of_mem _ hg))

/-- C9: running `sync(Copy, task, NeverOverwrite)` twice in succession
produces the same destination tree as running it once: whenever the first
copy run completes in state `st1`, a second identical run starting from
`st1` is a complete no-op, returning exactly `st1` (same destination
directories and same destination files with the same contents, and the
source untouched). -/
theorem copy_idempotent_never_overwrite (onlf ignf : Option (String → Bool))
    (walk : List (RPath × List String)) :
    ∀ (st st1 : SyncState),
      runDir TransferMode.cp onlf ignf false walk st = some st1 →
      runDir TransferMode.cp onlf ignf false walk st1 = some st1 := by
  induction walk with
  | nil =>
    intro st st1 h
    injection h with h1
    subst h1
    rfl
  | cons entry rest ih =>
    obtain ⟨root, files⟩ := entry
    intro st st1 h
    simp only [runDir] at h ⊢
    by_cases hfilters : (onlf.isNone && ignf.isNone) = true
    · rw [if_pos hfilters] at h ⊢
      cases hf : runFiles TransferMode.cp onlf ignf false root files
          { st with dstDirs := mkdirs st.dstDirs root } with
      | none => rw [hf] at h; exact Option.noConfusion h
      | some stA =>
        rw [hf] at h
        have hinits : ∀ d ∈ root.inits, d ∈ st1.dstDirs := by
          intro d hd
          have h1 : d ∈ ({ st with dstDirs := mkdirs st.dstDirs root } :
              SyncState).dstDirs := mkdirs_mem_of_mem_inits _ _ _ hd
          have h2 := (runFiles_mono TransferMode.cp onlf ignf false root files
            _ stA hf).1 d h1
          exact (runDir_mono TransferMode.cp onlf ignf false rest stA st1 h).1 d h2
        have hst0 : ({ st1 with dstDirs := mkdirs st1.dstDirs root } :
            SyncState) = st1 := by
          rw [mkdirs_noop _ _ hinits]
        rw [hst0]
        have hex : ∀ f ∈ files, shouldInclude onlf ignf f = true →
            existsDst st1 (root ++ [f]) = true := by
          intro f hff hfi
          have h1 := runFiles_cp_post onlf ignf root files _ stA hf f hff hfi
          exact (runDir_mono TransferMode.cp onlf ignf false rest stA st1 h).2 _ h1
        rw [runFiles_cp_noop onlf ignf root files st1 hex]
        exact ih stA st1 h
    · rw [if_neg hfilters] at h ⊢
      cases hf : runFiles TransferMode.cp onlf ignf false root files st with
      | none => rw [hf] at h; exact Option.noConfusion h
      | some stA =>
        rw [hf] at h
        have hex : ∀ f ∈ files, shouldInclude onlf ignf f = true →
            existsDst st1 (root ++ [f]) = true := by
          intro f hff hfi
          have h1 := runFiles_cp_post onlf ignf root files _ stA hf f hff hfi
          exact (runDir_mono TransferMode.cp onlf ignf false rest stA st1 h).2 _ h1
        rw [runFiles_cp_noop onlf ignf root files st1 hex]
        exact ih stA st1 h

/-- Witness for C9 at a concrete one-file task: the first copy run populates
the destination, the second run returns the same state unchanged. -/
theorem copy_idempotent_witness :
    runDir TransferMode.cp none none false [([], ["a.txt"])]
        ⟨[(["a.txt"], "x")], [], []⟩ =
      some ⟨[(["a.txt"], "x")], [[]], [(["a.txt"], "x")]⟩ ∧
    runDir TransferMode.cp none none false [([], ["a.txt"])]
        ⟨[(["a.txt"], "x")], [[]], [(["a.txt"], "x")]⟩ =
      some ⟨[(["a.txt"], "x")], [[]], [(["a.txt"], "x")]⟩ :=
  ⟨by decide,
   copy_idempotent_never_overwrite none none [([], ["a.txt"])]
     ⟨[(["a.txt"], "x")], [], []⟩
     ⟨[(["a.txt"], "x")], [[]], [(["a.txt"], "x")]⟩ (by decide)⟩

theorem copyOrMove_cp_effects (root : RPath) (f : String) (st st1 : SyncState)
    (h : copyOrMove TransferMode.cp root f st = some st1) :
    st1.srcFiles = st.srcFiles ∧
    (∀ d ∈ st1.dstDirs, d ∈ st.dstDirs ∨ d <+: root) := by
  simp only [copyOrMove] at h
  cases hl : lookupF st.srcFiles (root ++ [f]) with
  | none => rw [hl] at h; exact Option.noConfusion h
  | some content =>
    rw [hl] at h
    simp only at h
    split at h
    · split at h
      · exact Option.noConfusion h
      · injection h with h1
        subst h1
        exact ⟨rfl, fun d hd => mkdirs_bound _ _ d hd⟩
    · injection h with h1
      subst h1
      exact ⟨rfl, fun d hd => mkdirs_bound _ _ d hd⟩

theorem runFiles_cp_effects (onlf ignf : Option (String → Bool)) (ov : Bool)
    (root : RPath) (fs : List String) :
    ∀ (st st1 : SyncState),
      runFiles TransferMode.cp onlf ignf ov root fs st = some st1 →
      st1.srcFiles = st.srcFiles ∧
      (∀ d ∈ st1.dstDirs, d ∈ st.dstDirs ∨ d <+: root) := by
  induction fs with
  | nil =>
    intro st st1 h
    injection h with h1
    subst h1
    exact ⟨rfl, fun d hd => Or.inl hd⟩
  | cons f fs' ih =>
    intro st st1 h
    unfold runFiles at h
    by_cases hinc : shouldInclude onlf ignf f = true
    · rw [if_pos hinc] at h
      by_cases hov : ov = true
      · rw [if_pos hov] at h
        cases hcm : copyOrMove TransferMode.cp root f st with
        | none => rw [hcm] at h; exact Option.noConfusion h
        | some stm =>
          rw [hcm] at h
          obtain ⟨hs1, hb1⟩ := copyOrMove_cp_effects root f st stm hcm
          obtain ⟨hs2, hb2⟩ := ih stm st1 h
          refine ⟨hs2.trans hs1, fun d hd => ?_⟩
          rcases hb2 d hd with hh | hh
          · exact hb1 d hh
          · exact Or.inr hh
      · rw [if_neg hov] at h
        by_cases hex : existsDst st (root ++ [f]) = true
        · rw [if_pos hex] at h
          exact ih st st1 h
        · rw [if_neg hex] at h
          cases hcm : copyOrMove TransferMode.cp root f st with
          | none => rw [hcm] at h; exact Option.noConfusion h
          | some stm =>
            rw [hcm] at h
            obtain ⟨hs1, hb1⟩ := copyOrMove_cp_effects root f st stm hcm
            obtain ⟨hs2, hb2⟩ := ih stm st1 h
            refine ⟨hs2.trans hs1, fun d hd => ?_⟩
            rcases hb2 d hd with hh | hh
            · exact hb1 d hh
            · exact Or.inr hh
    · rw [if_neg hinc] at h
      exact ih st st1 h

theorem copyOrMove_cp_total (root : RPath) (f : String) (st : SyncState)
    (hlk : (lookupF st.srcFiles (root ++ [f])).isSome = true)
    (hsafe : (root ++ [f]) ∉ st.dstDirs) :
    ∃ st1, copyOrMove TransferMode.cp root f st = some st1 := by
  simp only [copyOrMove]
  cases hl : lookupF st.srcFiles (root ++ [f]) with
  | none => rw [hl] at hlk; exact Bool.noConfusion hlk
  | some content =>
    simp only
    have hnotc : (mkdirs st.dstDirs root).contains (root ++ [f]) ≠ true := by
      intro hcont
      rcases mkdirs_bound st.dstDirs root _
          (List.mem_of_elem_eq_true hcont) with hh | hh
      · exact hsafe hh
      · exact not_prefix_append_singleton root f root (List.prefix_refl root) hh
    rw [if_neg hnotc]
    exact ⟨_, rfl⟩

theorem runFiles_cp_total (onlf ignf : Option (String → Bool)) (ov : Bool)
    (root : RPath) (fs : List String) :
    ∀ st : SyncState,
      (∀ f ∈ fs, shouldInclude onlf ignf f = true →
        (lookupF st.srcFiles (root ++ [f])).isSome = true) →
      (∀ f ∈ fs, shouldInclude onlf ignf f = true →
        (root ++ [f]) ∉ st.dstDirs) →
      ∃ st1, runFiles TransferMode.cp onlf ignf ov root fs st = some st1 := by
  induction fs with
  | nil => intro st _ _; exact ⟨st, rfl⟩
  | cons f fs' ih =>
    intro st hcoh hsafe
    unfold runFiles
    by_cases hinc : shouldInclude onlf ignf f = true
    · rw [if_pos hinc]
      have hnext : ∀ (stm : SyncState),
          copyOrMove TransferMode.cp root f st = some stm →
          ∃ st1, runFiles TransferMode.cp onlf ignf ov root fs' stm = some st1 := by
        intro stm hcm
        obtain ⟨hsrc, hbound⟩ := copyOrMove_cp_effects root f st stm hcm
        refine ih stm (fun g hg hgi => ?_) (fun g hg hgi => ?_)
        · rw [hsrc]
          exact hcoh g (List.mem_cons_of_mem _ hg) hgi
        · intro hmem
          rcases hbound _ hmem with hh | hh
          · exact hsafe g (List.mem_cons_of_mem _ hg) hgi hh
          · exact not_prefix_append_singleton root g root
              (List.prefix_refl root) hh
      by_cases hov : ov = true
      · rw [if_pos hov]
        obtain ⟨stm, hcm⟩ := copyOrMove_cp_total root f st
          (hcoh f (by simp) hinc) (hsafe f (by simp) hinc)
        rw [hcm]
        exact hnext stm hcm
      · rw [if_neg hov]
        by_cases hex : existsDst st (root ++ [f]) = true
        · rw [if_pos hex]
          exact ih st (fun g hg hgi => hcoh g (List.mem_cons_of_mem _ hg) hgi)
            (fun g hg hgi => hsafe g (List.mem_cons_of_mem _ hg) hgi)
        · rw [if_neg hex]
          obtain ⟨stm, hcm⟩ := copyOrMove_cp_total root f st
            (hcoh f (by simp) hinc) (hsafe f (by simp) hinc)
          rw [hcm]
          exact hnext stm hcm
    · rw [if_neg hinc]
      exact ih st (fun g hg hgi => hcoh g (List.mem_cons_of_mem _ hg) hgi)
        (fun g hg hgi => hsafe g (List.mem_cons_of_mem _ hg) hgi)

theorem runFiles_cp_dirs_post (onlf ignf : Option (String → Bool))
    (root : RPath) (fs : List String) :
    ∀ (st st1 : SyncState),
      runFiles TransferMode.cp onlf ignf true root fs st = some st1 →
      (∃ f ∈ fs, shouldInclude onlf ignf f = true) →
      ∀ d ∈ root.inits, d ∈ st1.dstDirs := by
  induction fs with
  | nil =>
    intro st st1 h hq
    obtain ⟨f, hf, _⟩ := hq
    exact absurd hf (List.not_mem_nil f)
  | cons f fs' ih =>
    intro st st1 h hq
    unfold runFiles at h
    by_cases hinc : shouldInclude onlf ignf f = true
    · rw [if_pos hinc, if_pos rfl] at h
      cases hcm : copyOrMove TransferMode.cp root f st with
      | none => rw [hcm] at h; exact Option.noConfusion h
      | some stm =>
        rw [hcm] at h
        intro d hd
        have hdm : d ∈ stm.dstDirs := by
          simp only [copyOrMove] at hcm
          cases hl : lookupF st.srcFiles (root ++ [f]) with
          | none => rw [hl] at hcm; exact Option.noConfusion hcm
          | some content =>
            rw [hl] at hcm
            simp only at hcm
            split at hcm
            · split at hcm
              · exact Option.noConfusion hcm
              · injection hcm with h1
                subst h1
                exact mkdirs_mem_of_mem_inits _ _ _ hd
            · injection hcm with h1
              subst h1
              exact mkdirs_mem_of_mem_inits _ _ _ hd
        exact (runFiles_mono TransferMode.cp onlf ignf true root fs' stm st1 h).1
          d hdm
    · rw [if_neg hinc] at h
      refine ih st st1 h ?_
      obtain ⟨g, hg, hgi⟩ := hq
      rcases List.mem_cons.1 hg with hg1 | hg1
      · subst hg1
        exact absurd hgi hinc
      · exact ⟨g, hg1, hgi⟩

/-- C4 amended: in copy mode the per-file transfer first runs
`os.makedirs(os.path.dirname(dst_path), exist_ok=True)`, so for every
qualifying file the transfer succeeds and never fails because its
destination parent directory did not yet exist, in both filtered and
unfiltered walks and under every overwrite policy; under AlwaysOverwrite
every walked directory containing a qualifying file ends up with its full
mirrored ancestor chain created at the destination.  In move mode the claim
fails: `shutil.move` creates no directories (see the counterexample), so a
move relies on the destination directories pre-created by the unfiltered
walk.  (Hypotheses: every qualifying source file is present in the source
tree, and no qualifying file's mirrored path collides with an existing
destination directory or with a walked directory's mirror.) -/
theorem copy_creates_missing_parents (onlf ignf : Option (String → Bool))
    (ov : Bool) (walk : List (RPath × List String)) :
    ∀ st : SyncState,
      (∀ e ∈ walk, ∀ f ∈ e.2, shouldInclude onlf ignf f = true →
        (lookupF st.srcFiles (e.1 ++ [f])).isSome = true) →
      (∀ e ∈ walk, ∀ f ∈ e.2, shouldInclude onlf ignf f = true →
        (e.1 ++ [f]) ∉ st.dstDirs ∧ ∀ e2 ∈ walk, ¬((e.1 ++ [f]) <+: e2.1)) →
      ∃ st1, runDir TransferMode.cp onlf ignf ov walk st = some st1 ∧
        (ov = true → ∀ e ∈ walk,
          (∃ f ∈ e.2, shouldInclude onlf ignf f = true) →
          ∀ d ∈ e.1.inits, d ∈ st1.dstDirs) := by
  induction walk with
  | nil =>
    intro st _ _
    exact ⟨st, rfl, fun _ e he => absurd he (List.not_mem_nil e)⟩
  | cons entry rest ih =>
    obtain ⟨root, files⟩ := entry
    intro st hcoh hsafe
    have hself : ((root, files) : RPath × List String) ∈ (root, files) :: rest :=
      List.mem_cons_self _ _
    simp only [runDir]
    by_cases hfilters : (onlf.isNone && ignf.isNone) = true
    · rw [if_pos hfilters]
      have hsafe0 : ∀ f ∈ files, shouldInclude onlf ignf f = true →
          (root ++ [f]) ∉ (mkdirs st.dstDirs root) := by
        intro f hf hfi hmem
        rcases mkdirs_bound st.dstDirs root _ hmem with hh | hh
        · exact (hsafe _ hself f hf hfi).1 hh
        · exact (hsafe _ hself f hf hfi).2 _ hself hh
      obtain ⟨stA, hA⟩ := runFiles_cp_total onlf ignf ov root files
        { st with dstDirs := mkdirs st.dstDirs root }
        (fun f hf hfi => hcoh _ hself f hf hfi) hsafe0
      rw [hA]
      obtain ⟨hsrcA, hbA⟩ := runFiles_cp_effects onlf ignf ov root files _ stA hA
      have hcohR : ∀ e ∈ rest, ∀ f ∈ e.2, shouldInclude onlf ignf f = true →
          (lookupF stA.srcFiles (e.1 ++ [f])).isSome = true := by
        intro e he f hf hfi
        rw [hsrcA]
        exact hcoh e (List.mem_cons_of_mem _ he) f hf hfi
      have hsafeR : ∀ e ∈ rest, ∀ f ∈ e.2, shouldInclude onlf ignf f = true →
          (e.1 ++ [f]) ∉ stA.dstDirs ∧
          ∀ e2 ∈ rest, ¬((e.1 ++ [f]) <+: e2.1) := by
        intro e he f hf hfi
        have hsw := hsafe e (List.mem_cons_of_mem _ he) f hf hfi
        refine ⟨?_, fun e2 he2 => hsw.2 e2 (List.mem_cons_of_mem _ he2)⟩
        intro hmem
        rcases hbA _ hmem with hh | hh
        · rcases mkdirs_bound st.dstDirs root _ hh with hh1 | hh1
          · exact hsw.1 hh1
          · exact hsw.2 _ hself hh1
        · exact hsw.2 _ hself hh
      obtain ⟨st1, hrest, hconc⟩ := ih stA hcohR hsafeR
      refine ⟨st1, hrest, ?_⟩
      intro hov e he hq
      subst hov
      rcases List.mem_cons.1 he with he1 | he1
      · subst he1
        intro d hd
        have hdm := runFiles_cp_dirs_post onlf ignf root files _ stA hA hq d hd
        exact (runDir_mono TransferMode.cp onlf ignf true rest stA st1 hrest).1
          d hdm
      · exact hconc rfl e he1 hq
    · rw [if_neg hfilters]
      have hsafe0 : ∀ f ∈ files, shouldInclude onlf ignf f = true →
          (root ++ [f]) ∉ st.dstDirs :=
        fun f hf hfi => (hsafe _ hself f hf hfi).1
      obtain ⟨stA, hA⟩ := runFiles_cp_total onlf ignf ov root files st
        (fun f hf hfi => hcoh _ hself f hf hfi) hsafe0
      rw [hA]
      obtain ⟨hsrcA, hbA⟩ := runFiles_cp_effects onlf ignf ov root files st stA hA
      have hcohR : ∀ e ∈ rest, ∀ f ∈ e.2, shouldInclude onlf ignf f = true →
          (lookupF stA.srcFiles (e.1 ++ [f])).isSome = true := by
        intro e he f hf hfi
        rw [hsrcA]
        exact hcoh e (List.mem_cons_of_mem _ he) f hf hfi
      have hsafeR : ∀ e ∈ rest, ∀ f ∈ e.2, shouldInclude onlf ignf f = true →
          (e.1 ++ [f]) ∉ stA.dstDirs ∧
          ∀ e2 ∈ rest, ¬((e.1 ++ [f]) <+: e2.1) := by
        intro e he f hf hfi
        have hsw := hsafe e (List.mem_cons_of_mem _ he) f hf hfi
        refine ⟨?_, fun e2 he2 => hsw.2 e2 (List.mem_cons_of_mem _ he2)⟩
        intro hmem
        rcases hbA _ hmem with hh | hh
        · exact hsw.1 hh
        · exact hsw.2 _ hself hh
      obtain ⟨st1, hrest, hconc⟩ := ih stA hcohR hsafeR
      refine ⟨st1, hrest, ?_⟩
      intro hov e he hq
      subst hov
      rcases List.mem_cons.1 he with he1 | he1
      · subst he1
        intro d hd
        have hdm := runFiles_cp_dirs_post onlf ignf root files st stA hA hq d hd
        exact (runDir_mono TransferMode.cp onlf ignf true rest stA st1 hrest).1
          d hdm
      · exact hconc rfl e he1 hq

/-- Witness for the amended C4 at the exact situation where move mode fails:
copy mode with a filter set and an empty destination (no directory exists
yet, not even the destination root) succeeds and creates the whole mirrored
ancestor chain of `sub`. -/
theorem copy_creates_missing_parents_witness :
    (∀ e ∈ [((["sub"] : RPath), ["b.txt"])], ∀ f ∈ e.2,
      shouldInclude (some (fun s => s = "b.txt")) none f = true →
      (lookupF [((["sub", "b.txt"] : RPath), "y")] (e.1 ++ [f])).isSome = true) ∧
    (∃ st1, runDir TransferMode.cp (some (fun s => s = "b.txt")) none true
        [(["sub"], ["b.txt"])] ⟨[(["sub", "b.txt"], "y")], [], []⟩ = some st1 ∧
      (true = true → ∀ e ∈ [((["sub"] : RPath), ["b.txt"])],
        (∃ f ∈ e.2, shouldInclude (some (fun s => s = "b.txt")) none f = true) →
        ∀ d ∈ e.1.inits, d ∈ st1.dstDirs)) :=
  ⟨by decide,
   copy_creates_missing_parents (some (fun s => s = "b.txt")) none true
     [(["sub"], ["b.txt"])] ⟨[(["sub", "b.txt"], "y")], [], []⟩
     (by decide) (by decide)⟩

theorem runFiles_mv_destructive (onlf ignf : Option (String → Bool))
    (root : RPath) (fs : List String) :
    ∀ st : SyncState,
      root ∈ st.dstDirs →
      (∀ f ∈ fs, shouldInclude onlf ignf f = true →
        (lookupF st.srcFiles (root ++ [f])).isSome = true) →
      (∀ f ∈ fs, shouldInclude onlf ignf f = true →
        (root ++ [f]) ∉ st.dstDirs) →
      fs.Nodup →
      ∃ st1, runFiles TransferMode.mv onlf ignf true root fs st = some st1 ∧
        (∀ f ∈ fs, shouldInclude onlf ignf f = true →
          lookupF st1.srcFiles (root ++ [f]) = none ∧
          lookupF st1.dstFiles (root ++ [f]) = lookupF st.srcFiles (root ++ [f])) ∧
        (∀ p : RPath, (∀ f ∈ fs, p ≠ root ++ [f]) →
          lookupF st1.srcFiles p = lookupF st.srcFiles p ∧
          lookupF st1.dstFiles p = lookupF st.dstFiles p) ∧
        st1.dstDirs = st.dstDirs := by
  induction fs with
  | nil =>
    intro st _ _ _ _
    exact ⟨st, rfl, fun f hf => absurd hf (List.not_mem_nil f),
      fun p _ => ⟨rfl, rfl⟩, rfl⟩
  | cons f fs' ih =>
    intro st hroot hcoh hsafe hnodup
    have hf_mem : f ∈ f :: fs' := by simp
    by_cases hinc : shouldInclude onlf ignf f = true
    · cases hl : lookupF st.srcFiles (root ++ [f]) with
      | none =>
        have hx := hcoh f hf_mem hinc
        rw [hl] at hx
        exact Bool.noConfusion hx
      | some content =>
        have hc1 : ¬(st.dstDirs.contains (root ++ [f]) = true) :=
          fun hcont => hsafe f hf_mem hinc (List.mem_of_elem_eq_true hcont)
        have hcm : copyOrMove TransferMode.mv root f st =
            some { st with srcFiles := removeF st.srcFiles (root ++ [f]),
                           dstFiles := setF st.dstFiles (root ++ [f]) content } := by
          simp only [copyOrMove]
          rw [hl]
          simp only
          rw [if_neg hc1, if_pos (List.elem_eq_true_of_mem hroot)]
        have hne_rel : ∀ g ∈ fs', root ++ [f] ≠ root ++ [g] := by
          intro g hg heq
          have hfg : f = g := by simpa using heq
          subst hfg
          exact (List.nodup_cons.1 hnodup).1 hg
        obtain ⟨st1, hrun, hpost, hframe, hdirs⟩ := ih
          { st with srcFiles := removeF st.srcFiles (root ++ [f]),
                    dstFiles := setF st.dstFiles (root ++ [f]) content }
          hroot
          (fun g hg hgi => by
            show (lookupF (removeF st.srcFiles (root ++ [f])) (root ++ [g])).isSome = true
            rw [lookupF_removeF, if_neg (hne_rel g hg)]
            exact hcoh g (List.mem_cons_of_mem _ hg) hgi)
          (fun g hg hgi => hsafe g (List.mem_cons_of_mem _ hg) hgi)
          ((List.nodup_cons.1 hnodup).2)
        refine ⟨st1, ?_, ?_, ?_, ?_⟩
        · unfold runFiles
          rw [if_pos hinc, if_pos rfl, hcm]
          exact hrun
        · intro g hg hgi
          rcases List.mem_cons.1 hg with hg1 | hg1
          · subst hg1
            have hfr := hframe (root ++ [g]) (fun a ha => hne_rel a ha)
            constructor
            · rw [hfr.1]
              show lookupF (removeF st.srcFiles (root ++ [g])) (root ++ [g]) = none
              rw [lookupF_removeF, if_pos rfl]
            · rw [hfr.2]
              show lookupF (setF st.dstFiles (root ++ [g]) content) (root ++ [g]) =
                lookupF st.srcFiles (root ++ [g])
              rw [lookupF_setF, if_pos rfl, hl]
          · have hp := hpost g hg1 hgi
            refine ⟨hp.1, ?_⟩
            rw [hp.2]
            show lookupF (removeF st.srcFiles (root ++ [f])) (root ++ [g]) = _
            rw [lookupF_removeF, if_neg (hne_rel g hg1)]
        · intro p hp
          have hp' : ∀ g ∈ fs', p ≠ root ++ [g] :=
            fun g hg => hp g (List.mem_cons_of_mem _ hg)
          have hfr := hframe p hp'
          have hpf : ¬(root ++ [f] = p) := fun heq => hp f hf_mem heq.symm
          constructor
          · rw [hfr.1]
            show lookupF (removeF st.srcFiles (root ++ [f])) p = _
            rw [lookupF_removeF, if_neg hpf]
          · rw [hfr.2]
            show lookupF (setF st.dstFiles (root ++ [f]) content) p = _
            rw [lookupF_setF, if_neg hpf]
        · exact hdirs
    · obtain ⟨st1, hrun, hpost, hframe, hdirs⟩ := ih st hroot
        (fun g hg hgi => hcoh g (List.mem_cons_of_mem _ hg) hgi)
        (fun g hg hgi => hsafe g (List.mem_cons_of_mem _ hg) hgi)
        ((List.nodup_cons.1 hnodup).2)
      refine ⟨st1, ?_, ?_,
        fun p hp => hframe p (fun g hg => hp g (List.mem_cons_of_mem _ hg)), hdirs⟩
      · unfold runFiles
        rw [if_neg hinc]
        exact hrun
      · intro g hg hgi
        rcases List.mem_cons.1 hg with hg1 | hg1
        · subst hg1
          exact absurd hgi hinc
        · exact hpost g hg1 hgi

theorem runDir_mv_destructive_aux (onlf ignf : Option (String → Bool))
    (walk : List (RPath × List String)) :
    ∀ st : SyncState,
      (∀ e ∈ walk, ∀ f ∈ e.2, shouldInclude onlf ignf f = true →
        (lookupF st.srcFiles (e.1 ++ [f])).isSome = true) →
      (∀ e ∈ walk, ∀ f ∈ e.2, shouldInclude onlf ignf f = true →
        (e.1 ++ [f]) ∉ st.dstDirs ∧ ∀ e2 ∈ walk, ¬((e.1 ++ [f]) <+: e2.1)) →
      ((onlf.isNone && ignf.isNone) = true ∨ ∀ e ∈ walk, e.1 ∈ st.dstDirs) →
      (walk.flatMap (fun e => e.2.map (fun f => e.1 ++ [f]))).Nodup →
      ∃ st1, runDir TransferMode.mv onlf ignf true walk st = some st1 ∧
        (∀ e ∈ walk, ∀ f ∈ e.2, shouldInclude onlf ignf f = true →
          lookupF st1.srcFiles (e.1 ++ [f]) = none ∧
          lookupF st1.dstFiles (e.1 ++ [f]) = lookupF st.srcFiles (e.1 ++ [f])) ∧
        (∀ p : RPath, (∀ e ∈ walk, ∀ f ∈ e.2, p ≠ e.1 ++ [f]) →
          lookupF st1.srcFiles p = lookupF st.srcFiles p ∧
          lookupF st1.dstFiles p = lookupF st.dstFiles p) ∧
        (∀ d ∈ st1.dstDirs, d ∈ st.dstDirs ∨ ∃ e ∈ walk, d <+: e.1) := by
  induction walk with
  | nil =>
    intro st _ _ _ _
    exact ⟨st, rfl, fun e he => absurd he (List.not_mem_nil e),
      fun p _ => ⟨rfl, rfl⟩, fun d hd => Or.inl hd⟩
  | cons entry rest ih =>
    obtain ⟨root, files⟩ := entry
    intro st hcoh hsafe hroots hnodup
    have hself : ((root, files) : RPath × List String) ∈ (root, files) :: rest :=
      List.mem_cons_self _ _
    rw [List.flatMap_cons] at hnodup
    have hnd := List.nodup_append.1 hnodup
    have hfiles_nd : files.Nodup := List.Nodup.of_map _ hnd.1
    have hne_cross : ∀ f ∈ files, ∀ e ∈ rest, ∀ g ∈ e.2,
        root ++ [f] ≠ e.1 ++ [g] := by
      intro f hf e he g hg heq
      apply hnd.2.2 (List.mem_map.2 ⟨f, hf, rfl⟩)
      rw [heq]
      exact List.mem_flatMap.2 ⟨e, he, List.mem_map.2 ⟨g, hg, rfl⟩⟩
    by_cases hfilters : (onlf.isNone && ignf.isNone) = true
    · have hroot0 : root ∈ (mkdirs st.dstDirs root) := mkdirs_self _ _
      have hsafe0 : ∀ f ∈ files, shouldInclude onlf ignf f = true →
          (root ++ [f]) ∉ (mkdirs st.dstDirs root) := by
        intro f hf hfi hmem
        rcases mkdirs_bound st.dstDirs root _ hmem with hh | hh
        · exact (hsafe _ hself f hf hfi).1 hh
        · exact (hsafe _ hself f hf hfi).2 _ hself hh
      obtain ⟨stA, hA, postA, frameA, dirsA⟩ := runFiles_mv_destructive onlf ignf
        root files { st with dstDirs := mkdirs st.dstDirs root } hroot0
        (fun f hf hfi => hcoh _ hself f hf hfi) hsafe0 hfiles_nd
      have hbA : ∀ d ∈ stA.dstDirs, d ∈ st.dstDirs ∨ d <+: root := by
        intro d hd
        rw [dirsA] at hd
        exact mkdirs_bound st.dstDirs root d hd
      obtain ⟨st1, hrun1, post1, frame1, bound1⟩ := ih stA
        (fun e he f hf hfi => by
          have hfr := frameA (e.1 ++ [f])
            (fun g hg heq => (hne_cross g hg e he f hf heq.symm))
          rw [hfr.1]
          exact hcoh e (List.mem_cons_of_mem _ he) f hf hfi)
        (fun e he f hf hfi => by
          have hsw := hsafe e (List.mem_cons_of_mem _ he) f hf hfi
          refine ⟨?_, fun e2 he2 => hsw.2 e2 (List.mem_cons_of_mem _ he2)⟩
          intro hmem
          rcases hbA _ hmem with hh | hh
          · exact hsw.1 hh
          · exact hsw.2 _ hself hh)
        (Or.inl hfilters)
        hnd.2.1
      refine ⟨st1, ?_, ?_, ?_, ?_⟩
      · simp only [runDir]
        rw [if_pos hfilters, hA]
        exact hrun1
      · intro e he f hf hfi
        rcases List.mem_cons.1 he with he1 | he1
        · subst he1
          have hfr1 := frame1 (root ++ [f])
            (fun e2 he2 g hg => hne_cross f hf e2 he2 g hg)
          have hpA := postA f hf hfi
          exact ⟨by rw [hfr1.1]; exact hpA.1, by rw [hfr1.2]; exact hpA.2⟩
        · have hp1 := post1 e he1 f hf hfi
          refine ⟨hp1.1, ?_⟩
          rw [hp1.2]
          exact (frameA (e.1 ++ [f])
            (fun g hg heq => (hne_cross g hg e he1 f hf heq.symm))).1
      · intro p hp
        have hframeA := frameA p (fun f hf => hp _ hself f hf)
        have hframe1 := frame1 p
          (fun e he f hf => hp e (List.mem_cons_of_mem _ he) f hf)
        exact ⟨hframe1.1.trans hframeA.1, hframe1.2.trans hframeA.2⟩
      · intro d hd
        rcases bound1 d hd with hh | hh
        · rcases hbA d hh with hh1 | hh1
          · exact Or.inl hh1
          · exact Or.inr ⟨_, hself, hh1⟩
        · obtain ⟨e, he, hpre⟩ := hh
          exact Or.inr ⟨e, List.mem_cons_of_mem _ he, hpre⟩
    · have hroots' : ∀ e ∈ (root, files) :: rest, e.1 ∈ st.dstDirs := by
        rcases hroots with hh | hh
        · exact absurd hh hfilters
        · exact hh
      obtain ⟨stA, hA, postA, frameA, dirsA⟩ := runFiles_mv_destructive onlf ignf
        root files st (hroots' _ hself)
        (fun f hf hfi => hcoh _ hself f hf hfi)
        (fun f hf hfi => (hsafe _ hself f hf hfi).1) hfiles_nd
      obtain ⟨st1, hrun1, post1, frame1, bound1⟩ := ih stA
        (fun e he f hf hfi => by
          have hfr := frameA (e.1 ++ [f])
            (fun g hg heq => (hne_cross g hg e he f hf heq.symm))
          rw [hfr.1]
          exact hcoh e (List.mem_cons_of_mem _ he) f hf hfi)
        (fun e he f hf hfi => by
          have hsw := hsafe e (List.mem_cons_of_mem _ he) f hf hfi
          refine ⟨?_, fun e2 he2 => hsw.2 e2 (List.mem_cons_of_mem _ he2)⟩
          intro hmem
          rw [dirsA] at hmem
          exact hsw.1 hmem)
        (Or.inr (fun e he => by
          rw [dirsA]
          exact hroots' e (List.mem_cons_of_mem _ he)))
        hnd.2.1
      refine ⟨st1, ?_, ?_, ?_, ?_⟩
      · simp only [runDir]
        rw [if_neg hfilters, hA]
        exact hrun1
      · intro e he f hf hfi
        rcases List.mem_cons.1 he with he1 | he1
        · subst he1
          have hfr1 := frame1 (root ++ [f])
            (fun e2 he2 g hg => hne_cross f hf e2 he2 g hg)
          have hpA := postA f hf hfi
          exact ⟨by rw [hfr1.1]; exact hpA.1, by rw [hfr1.2]; exact hpA.2⟩
        · have hp1 := post1 e he1 f hf hfi
          refine ⟨hp1.1, ?_⟩
          rw [hp1.2]
          exact (frameA (e.1 ++ [f])
            (fun g hg heq => (hne_cross g hg e he1 f hf heq.symm))).1
      · intro p hp
        have hframeA := frameA p (fun f hf => hp _ hself f hf)
        have hframe1 := frame1 p
          (fun e he f hf => hp e (List.mem_cons_of_mem _ he) f hf)
        exact ⟨hframe1.1.trans hframeA.1, hframe1.2.trans hframeA.2⟩
      · intro d hd
        rcases bound1 d hd with hh | hh
        · rw [dirsA] at hh
          exact Or.inl hh
        · obtain ⟨e, he, hpre⟩ := hh
          exact Or.inr ⟨e, List.mem_cons_of_mem _ he, hpre⟩

/-- C3 amended: move is destructive under the AlwaysOverwrite policy.  For a
directory-source move task whose walk satisfies the natural side conditions
— every qualifying source file is present in the source tree, walked
relative paths are pairwise distinct, no qualifying file's mirrored path
collides with an existing destination directory or with a walked
directory's mirror, and every walked directory's mirror exists at the
destination (automatic when neither filter is set, since the unfiltered
walk pre-creates it) — the run completes and every originally-present
source file that qualified under the task's filters no longer exists at its
source path and exists at the mirrored destination path with its original
content.  Under NeverOverwrite the original claim fails (see the
counterexample): a qualifying file whose destination already exists is
skipped and remains at the source. -/
theorem move_destructive_always_overwrite (onlf ignf : Option (String → Bool))
    (walk : List (RPath × List String)) (st : SyncState)
    (hcoh : ∀ e ∈ walk, ∀ f ∈ e.2, shouldInclude onlf ignf f = true →
      (lookupF st.srcFiles (e.1 ++ [f])).isSome = true)
    (hsafe : ∀ e ∈ walk, ∀ f ∈ e.2, shouldInclude onlf ignf f = true →
      (e.1 ++ [f]) ∉ st.dstDirs ∧ ∀ e2 ∈ walk, ¬((e.1 ++ [f]) <+: e2.1))
    (hroots : (onlf.isNone && ignf.isNone) = true ∨
      ∀ e ∈ walk, e.1 ∈ st.dstDirs)
    (hnodup : (walk.flatMap (fun e => e.2.map (fun f => e.1 ++ [f]))).Nodup) :
    ∃ st1, runDir TransferMode.mv onlf ignf true walk st = some st1 ∧
      ∀ e ∈ walk, ∀ f ∈ e.2, shouldInclude onlf ignf f = true →
        lookupF st1.srcFiles (e.1 ++ [f]) = none ∧
        lookupF st1.dstFiles (e.1 ++ [f]) = lookupF st.srcFiles (e.1 ++ [f]) := by
  obtain ⟨st1, hrun, hpost, _, _⟩ :=
    runDir_mv_destructive_aux onlf ignf walk st hcoh hsafe hroots hnodup
  exact ⟨st1, hrun, hpost⟩

/-- Witness for the amended C3: a filtered move (only `a.txt` qualifies,
`b.csv` does not) under AlwaysOverwrite with the destination root already
present removes the qualifying file from the source and places its content
at the mirrored destination. -/
theorem move_destructive_witness :
    ∃ st1, runDir TransferMode.mv (some (fun s => s = "a.txt")) none true
        [([], ["a.txt", "b.csv"])]
        ⟨[(["a.txt"], "x"), (["b.csv"], "z")], [[]], []⟩ = some st1 ∧
      ∀ e ∈ [(([] : RPath), ["a.txt", "b.csv"])], ∀ f ∈ e.2,
        shouldInclude (some (fun s => s = "a.txt")) none f = true →
        lookupF st1.srcFiles (e.1 ++ [f]) = none ∧
        lookupF st1.dstFiles (e.1 ++ [f]) =
          lookupF [((["a.txt"] : RPath), "x"), (["b.csv"], "z")] (e.1 ++ [f]) :=
  move_destructive_always_overwrite (some (fun s => s = "a.txt")) none
    [([], ["a.txt", "b.csv"])]
    ⟨[(["a.txt"], "x"), (["b.csv"], "z")], [[]], []⟩
    (by decide) (by decide) (by decide) (by decide)
